import Mathlib

/-!
# Verification of the syllabus-parser core (`app/services/syllabus_parser.py`)

A shallow embedding of the parsing, cleaning and normalization logic of the
repository's `backend/app/services/syllabus_parser.py`, together with theorems
settling the specification claims about it.

Modelling conventions:
* Python strings are `List Char`; the scanners below implement the exact
  regular expressions of the source by hand (left-to-right scan, leftmost
  match, greedy quantifiers with backtracking where the pattern needs it).
* Python's `\s` class and `str.strip()` use the ASCII whitespace characters
  `' '`, `'\t'`, `'\n'`, `'\r'`, `'\x0b'`, `'\x0c'` (the source never feeds
  non-ASCII whitespace to these functions).
* Python floats are modelled as exact rationals; `round(x, 2)` is modelled as
  round-half-to-even to two decimal places, which agrees with Python on every
  value that is exactly representable.
* Scanners that skip past a match use an explicit fuel argument, initialised
  with the length of the input, which is always enough because every step
  consumes at least one character.
-/

namespace SyllabusParser

/-- Python's `\s` (ASCII range), as used by `re` and `str.strip()`. -/
def ws (c : Char) : Bool :=
  c = ' ' || c = '\t' || c = '\n' || c = '\r' || c = '\x0b' || c = '\x0c'

/-- The character class `[ \t]` of `_clean_text`'s third substitution. -/
def blank (c : Char) : Bool := c = ' ' || c = '\t'

/-- `str.strip()` from the front: drop leading whitespace. -/
def stripFront (l : List Char) : List Char := l.dropWhile ws

/-- `str.strip()` from the back: drop trailing whitespace. -/
def stripBack (l : List Char) : List Char := ((l.reverse).dropWhile ws).reverse

/-- Python `str.strip()`: drop whitespace at both ends. -/
def pyStrip (l : List Char) : List Char := stripBack (stripFront l)

/-! ## `_clean_text`

```python
def _clean_text(s: str) -> str:
    s = re.sub(r"-\s*\n\s*", "", s)
    s = re.sub(r"\r", "\n", s)
    s = re.sub(r"[ \t]+\n", "\n", s)
    s = re.sub(r"\n{3,}", "\n\n", s)
    return s.strip()
```

Each substitution is implemented as a one-pass state machine equivalent to
`re.sub`'s leftmost non-overlapping matching.  For `-\s*\n\s*` the greedy
quantifiers make every match consist of a `'-'` together with the whole
maximal whitespace run following it, provided that run contains a newline;
`hyphenGo` buffers the run after a `'-'` and drops or flushes it accordingly.
-/

/-- State machine for `re.sub(r"-\s*\n\s*", "", s)`.  The state `none` is
ordinary scanning; `some (buf, h)` means a `'-'` was read, `buf` holds the
(reversed) whitespace run read since then, and `h` records whether that run
contains a `'\n'`. -/
def hyphenGo : Option (List Char × Bool) → List Char → List Char
  | none, [] => []
  | some (buf, h), [] => if h then [] else '-' :: buf.reverse
  | none, c :: rest =>
      if c = '-' then hyphenGo (some ([], false)) rest
      else c :: hyphenGo none rest
  | some (buf, h), c :: rest =>
      if ws c then hyphenGo (some (c :: buf, h || c = '\n')) rest
      else
        (if h then [] else '-' :: buf.reverse) ++
          (if c = '-' then hyphenGo (some ([], false)) rest
           else c :: hyphenGo none rest)

/-- `re.sub(r"-\s*\n\s*", "", s)`: join words hyphenated across a line break. -/
def subHyphenNL (l : List Char) : List Char := hyphenGo none l

/-- `re.sub(r"\r", "\n", s)`: normalize carriage returns to newlines. -/
def subCR (l : List Char) : List Char := l.map (fun c => if c = '\r' then '\n' else c)

/-- State machine for `re.sub(r"[ \t]+\n", "\n", s)`: `buf` holds the
(reversed) run of blanks read so far; a following `'\n'` discards it. -/
def blanksGo : List Char → List Char → List Char
  | buf, [] => buf.reverse
  | buf, c :: rest =>
      if blank c then blanksGo (c :: buf) rest
      else if c = '\n' then '\n' :: blanksGo [] rest
      else buf.reverse ++ c :: blanksGo [] rest

/-- `re.sub(r"[ \t]+\n", "\n", s)`: strip trailing blanks before newlines. -/
def subBlanksNL (l : List Char) : List Char := blanksGo [] l

/-- State machine for `re.sub(r"\n{3,}", "\n\n", s)`: `k` counts the pending
run of newlines; runs of three or more are emitted as exactly two. -/
def nlGo : Nat → List Char → List Char
  | k, [] => List.replicate (if 3 ≤ k then 2 else k) '\n'
  | k, c :: rest =>
      if c = '\n' then nlGo (k + 1) rest
      else List.replicate (if 3 ≤ k then 2 else k) '\n' ++ c :: nlGo 0 rest

/-- `re.sub(r"\n{3,}", "\n\n", s)`: collapse long newline runs to two. -/
def subManyNL (l : List Char) : List Char := nlGo 0 l

/-- `_clean_text`: the four substitutions followed by `str.strip()`. -/
def cleanText (l : List Char) : List Char :=
  pyStrip (subManyNL (subBlanksNL (subCR (subHyphenNL l))))

/-! ### Normal-form predicates for the cleaner

`cleanText` applied to a carriage-return-free string produces a string that is
a fixed point of every stage; the predicates below characterise the relevant
normal forms. -/

/-- No `'-'` is followed by a whitespace run containing `'\n'` (i.e. the
pattern `-\s*\n\s*` does not occur). -/
def NoHB : List Char → Prop
  | [] => True
  | c :: rest => (c = '-' → '\n' ∉ rest.takeWhile ws) ∧ NoHB rest

/-- Adjacent-pair relation: a blank is never immediately followed by `'\n'`
(i.e. the pattern `[ \t]+\n` does not occur). -/
def R3 (a b : Char) : Prop := ¬(blank a = true ∧ b = '\n')

/-- No three consecutive newlines (i.e. the pattern `\n{3,}` does not occur). -/
def NoT3 : List Char → Prop
  | a :: b :: c :: rest => ¬(a = '\n' ∧ b = '\n' ∧ c = '\n') ∧ NoT3 (b :: c :: rest)
  | _ => True

/-! ## Date machinery

The regular expressions of the source:
```python
DATE_RE = re.compile(r"^\d{4}-\d{2}-\d{2}$")
MONTHS = r"(January|...|December|Jan|Feb|Mar|Apr|Jun|Jul|Aug|Sep|Sept|Oct|Nov|Dec)"
DATE_TOKEN_RE = re.compile(rf"\b{MONTHS}\.?\s+\d{{1,2}}(?:st|nd|rd|th)?(?:,\s*(\d{{4}}))?\b", re.IGNORECASE)
```
Each scanner implements leftmost matching with the exact greedy/backtracking
behaviour of the Python `re` engine on these patterns; `\b` and `\w` use the
ASCII interpretation `[A-Za-z0-9_]`. -/

/-- Lower-case an ASCII letter, for `re.IGNORECASE` comparisons. -/
def lowerA (c : Char) : Char :=
  if 'A' ≤ c ∧ c ≤ 'Z' then Char.ofNat (c.toNat + 32) else c

/-- Case-insensitive character equality. -/
def eqCI (a b : Char) : Bool := lowerA a = lowerA b

/-- Case-insensitive "text starts with pattern" test. -/
def startsWithCI : List Char → List Char → Bool
  | [], _ => true
  | _ :: _, [] => false
  | p :: ps, c :: cs => eqCI p c && startsWithCI ps cs

def isDigit (c : Char) : Bool := '0' ≤ c && c ≤ '9'

/-- Python `\w` (ASCII): `[A-Za-z0-9_]`. -/
def isWordChar (c : Char) : Bool :=
  ('a' ≤ c && c ≤ 'z') || ('A' ≤ c && c ≤ 'Z') || isDigit c || c = '_'

def isWordOpt : Option Char → Bool
  | none => false
  | some c => isWordChar c

/-- `\b` holds right after position `l` continues — a word boundary after the
last consumed (word) character: the next character is absent or non-word. -/
def wbAfter (l : List Char) : Bool :=
  match l with
  | [] => true
  | c :: _ => !isWordChar c

/-- The `MONTHS` alternatives, in the source's order. -/
def monthAlts : List (List Char) :=
  ["January", "February", "March", "April", "May", "June", "July", "August",
   "September", "October", "November", "December", "Jan", "Feb", "Mar",
   "Apr", "Jun", "Jul", "Aug", "Sep", "Sept", "Oct", "Nov",
   "Dec"].map String.toList

def ordAlts : List (List Char) := ["st", "nd", "rd", "th"].map String.toList

/-- Try pattern alternatives in order, with backtracking into the
continuation `k` (which returns the number of further characters consumed). -/
def tryAlts (alts : List (List Char)) (l : List Char)
    (k : List Char → Option Nat) : Option Nat :=
  match alts with
  | [] => none
  | a :: rest =>
      if startsWithCI a l then
        match k (l.drop a.length) with
        | some n => some (a.length + n)
        | none => tryAlts rest l k
      else tryAlts rest l k

/-- `(?:,\s*(\d{4}))?\b` — the year group of `DATE_TOKEN_RE`, including the
final word boundary when the group is present. -/
def tokTryYear (l : List Char) : Option Nat :=
  match l with
  | ',' :: rest =>
      let wsn := (rest.takeWhile ws).length
      let r := rest.drop wsn
      if (r.take 4).length = 4 && (r.take 4).all isDigit && wbAfter (r.drop 4)
      then some (1 + wsn + 4) else none
  | _ => none

/-- After the day digits: the optional year group, else the bare final `\b`. -/
def tokAfterDay (l : List Char) : Option Nat :=
  match tokTryYear l with
  | some n => some n
  | none => if wbAfter l then some 0 else none

/-- `(?:st|nd|rd|th)?` after the day digits (greedy, with backtracking). -/
def tokOrdinal (l : List Char) : Option Nat :=
  match tryAlts ordAlts l tokAfterDay with
  | some n => some n
  | none => tokAfterDay l

/-- `\d{1,2}` (greedy, two digits tried before one). -/
def tokDay : List Char → Option Nat
  | [] => none
  | [a] => if isDigit a then (tokAfterDay [] ).map (· + 1) else none
  | a :: b :: rest =>
      if isDigit a then
        match (if isDigit b then (tokOrdinal rest).map (· + 2) else none) with
        | some n => some n
        | none => (tokOrdinal (b :: rest)).map (· + 1)
      else none

/-- `\s+` before the day (the whole run; whitespace and digits are disjoint,
so no backtracking is possible here). -/
def tokWsDay (l : List Char) : Option Nat :=
  let n := (l.takeWhile ws).length
  if n = 0 then none else (tokDay (l.drop n)).map (n + ·)

/-- `\.?` after the month name (greedy: the dot branch is tried first). -/
def tokDot (l : List Char) : Option Nat :=
  match l with
  | '.' :: rest =>
      match tokWsDay rest with
      | some n => some (n + 1)
      | none => tokWsDay l
  | _ => tokWsDay l

/-- Length of the `DATE_TOKEN_RE` match starting at this position, given the
preceding character (`\b` before the month name). -/
def dateTokenAt (prev : Option Char) (l : List Char) : Option Nat :=
  if isWordOpt prev then none else tryAlts monthAlts l tokDot

/-- `finditer(DATE_TOKEN_RE, text)`: non-overlapping matches left to right.
Fuel-driven; every step consumes at least one character, so fuel equal to the
input length always suffices. -/
def scanDateTokens : Nat → Option Char → List Char → List (List Char)
  | 0, _, _ => []
  | _ + 1, _, [] => []
  | fuel + 1, prev, c :: rest =>
      match dateTokenAt prev (c :: rest) with
      | some n =>
          let m := (c :: rest).take n
          m :: scanDateTokens fuel m.getLast? ((c :: rest).drop n)
      | none => scanDateTokens fuel (some c) rest

def dateTokens (l : List Char) : List (List Char) := scanDateTokens l.length none l

/-- `DATE_RE`: the exact shape `\d{4}-\d{2}-\d{2}` (anchored both ends). -/
def isoShape (s : List Char) : Bool :=
  match s with
  | [a, b, c, d, h1, e, f, h2, g, i] =>
      isDigit a && isDigit b && isDigit c && isDigit d && h1 = '-' &&
      isDigit e && isDigit f && h2 = '-' && isDigit g && isDigit i
  | _ => false

/-- `\b\d{4}-\d{2}-\d{2}\b` matches at this position. -/
def isoAt (prev : Option Char) (l : List Char) : Bool :=
  !isWordOpt prev && isoShape (l.take 10) && wbAfter (l.drop 10)

/-- `re.findall(r"\b\d{4}-\d{2}-\d{2}\b", text)`. -/
def scanIso : Nat → Option Char → List Char → List (List Char)
  | 0, _, _ => []
  | _ + 1, _, [] => []
  | fuel + 1, prev, c :: rest =>
      if isoAt prev (c :: rest) then
        (c :: rest).take 10 ::
          scanIso fuel ((c :: rest).take 10).getLast? ((c :: rest).drop 10)
      else scanIso fuel (some c) rest

def isoMatches (l : List Char) : List (List Char) := scanIso l.length none l

/-- `\b(20\d{2}|19\d{2})\b` matches at this position. -/
def yearAt (prev : Option Char) (l : List Char) : Bool :=
  !isWordOpt prev &&
    (match l with
     | a :: b :: c :: d :: rest =>
         ((a = '2' && b = '0') || (a = '1' && b = '9')) && isDigit c &&
           isDigit d && wbAfter rest
     | _ => false)

/-- `re.search(r"\b(20\d{2}|19\d{2})\b", text)`: the first year match. -/
def scanYear : Nat → Option Char → List Char → Option (List Char)
  | 0, _, _ => none
  | _ + 1, _, [] => none
  | fuel + 1, prev, c :: rest =>
      if yearAt prev (c :: rest) then some ((c :: rest).take 4)
      else scanYear fuel (some c) rest

def searchYear (l : List Char) : Option (List Char) := scanYear l.length none l

/-- `re.sub(r"(?i)\b(st|nd|rd|th)\b", "", token)`: remove stand-alone ordinal
words (all ordinal alternatives are two characters long). -/
def scanStripOrdWords : Nat → Option Char → List Char → List Char
  | 0, _, l => l
  | _ + 1, _, [] => []
  | fuel + 1, prev, c :: rest =>
      match rest with
      | r1 :: rest2 =>
          if !isWordOpt prev && ordAlts.any (startsWithCI · (c :: rest)) &&
              wbAfter rest2 then
            scanStripOrdWords fuel (some r1) rest2
          else c :: scanStripOrdWords fuel (some c) rest
      | [] => c :: scanStripOrdWords fuel (some c) rest

def stripOrdWords (tok : List Char) : List Char :=
  scanStripOrdWords tok.length none tok

/-- Length of the longest suffix matching `\s*,?\s*` (the leftmost match of
`re.sub(r"\s*,?\s*$", ...)`). -/
def trailingWsCommaLen (l : List Char) : Nat :=
  let r := l.reverse
  let k1 := (r.takeWhile ws).length
  match r.drop k1 with
  | ',' :: r2 => k1 + 1 + (r2.takeWhile ws).length
  | _ => k1

/-- `re.sub(r"\s*,?\s*$", f", {year}", token)`. -/
def appendYearRe (token year : List Char) : List Char :=
  token.take (token.length - trailingWsCommaLen token) ++
    (',' :: ' ' :: year)

/-! ### `_to_iso` -/

/-- `re.sub(r"(\d{1,2})(st|nd|rd|th)", r"\1", s)`: drop ordinal suffixes that
directly follow one or two digits. -/
def scanOrdSub : Nat → List Char → List Char
  | 0, l => l
  | _ + 1, [] => []
  | fuel + 1, c :: rest =>
      if isDigit c then
        match rest with
        | b :: rest2 =>
            if isDigit b && ordAlts.any (startsWithCI · rest2) then
              c :: b :: scanOrdSub fuel (rest2.drop 2)
            else if ordAlts.any (startsWithCI · rest) then
              c :: scanOrdSub fuel (rest.drop 2)
            else c :: scanOrdSub fuel rest
        | [] => [c]
      else c :: scanOrdSub fuel rest

def stripOrdinals (s : List Char) : List Char := scanOrdSub s.length s

/-- `%B` month names (C locale), position = month number - 1. -/
def fullMonths : List (List Char) :=
  ["January", "February", "March", "April", "May", "June", "July", "August",
   "September", "October", "November", "December"].map String.toList

/-- `%b` month names (C locale). -/
def abbrMonths : List (List Char) :=
  ["Jan", "Feb", "Mar", "Apr", "May", "Jun", "Jul", "Aug", "Sep", "Oct",
   "Nov", "Dec"].map String.toList

def monthFindGo (s : List Char) : List (List Char) → Nat → Option (Nat × List Char)
  | [], _ => none
  | m :: rest, i =>
      if startsWithCI m s then some (i, s.drop m.length)
      else monthFindGo s rest (i + 1)

/-- Find which month name starts the string (no month name is a prefix of
another within either list, so first-match is unambiguous). -/
def monthFind (months : List (List Char)) (s : List Char) :
    Option (Nat × List Char) :=
  monthFindGo s months 1

def dv (c : Char) : Nat := c.toNat - '0'.toNat

/-- `%Y` = exactly four digits, followed by nothing (strptime rejects
unconverted trailing data). -/
def parseWsYear (r : List Char) : Option Nat :=
  let n := (r.takeWhile ws).length
  if n = 0 then none
  else
    match r.drop n with
    | [a, b, c, d] =>
        if isDigit a && isDigit b && isDigit c && isDigit d then
          some (((dv a * 10 + dv b) * 10 + dv c) * 10 + dv d)
        else none
    | _ => none

/-- After the day: `, %Y` or ` %Y` according to the format. -/
def parseRest (comma : Bool) (r : List Char) : Option Nat :=
  if comma then
    match r with
    | ',' :: r2 => parseWsYear r2
    | _ => none
  else parseWsYear r

/-- The `%d` alternatives `3[01]|[12]\d|0[1-9]|[1-9]| [1-9]`, in regex
order, paired with the remaining input. -/
def dayCandidates : List Char → List (Nat × List Char)
  | [] => []
  | [a] => if '1' ≤ a && a ≤ '9' then [(dv a, [])] else []
  | a :: b :: rest =>
      (if a = '3' && (b = '0' || b = '1') then [(30 + dv b, rest)] else []) ++
      (if (a = '1' || a = '2') && isDigit b then [(dv a * 10 + dv b, rest)]
       else []) ++
      (if a = '0' && ('1' ≤ b && b ≤ '9') then [(dv b, rest)] else []) ++
      (if '1' ≤ a && a ≤ '9' then [(dv a, b :: rest)] else []) ++
      (if a = ' ' && ('1' ≤ b && b ≤ '9') then [(dv b, rest)] else [])

/-- First day alternative whose continuation parses (regex backtracking). -/
def firstDayParse (comma : Bool) : List (Nat × List Char) → Option (Nat × Nat)
  | [] => none
  | (d, r) :: rest =>
      match parseRest comma r with
      | some y => some (d, y)
      | none => firstDayParse comma rest

/-- `datetime.strptime(s, fmt)` for the formats `"%B %d, %Y"`-style: month
name, `\s+`, day, optional comma, `\s+`, four-digit year; case-insensitive;
the whole string must be consumed. -/
def strptimeMDY (months : List (List Char)) (comma : Bool) (s : List Char) :
    Option (Nat × Nat × Nat) :=
  match monthFind months s with
  | none => none
  | some (m, r1) =>
      let wsn := (r1.takeWhile ws).length
      if wsn = 0 then none
      else
        match firstDayParse comma (dayCandidates (r1.drop wsn)) with
        | none => none
        | some (d, y) => some (y, m, d)

def isLeap (y : Nat) : Bool :=
  y % 4 = 0 && (y % 100 ≠ 0 || y % 400 = 0)

def daysInMonth (y m : Nat) : Nat :=
  if m = 2 then (if isLeap y then 29 else 28)
  else if m = 4 || m = 6 || m = 9 || m = 11 then 30
  else 31

def digitChar (d : Nat) : Char := Char.ofNat ('0'.toNat + d)

def natToCharsAux : Nat → Nat → List Char
  | 0, _ => []
  | fuel + 1, n =>
      if n < 10 then [digitChar n]
      else natToCharsAux fuel (n / 10) ++ [digitChar (n % 10)]

def natToChars (n : Nat) : List Char := natToCharsAux (n + 1) n

def padZeros (w n : Nat) : List Char :=
  let d := natToChars n
  List.replicate (w - d.length) '0' ++ d

/-- `dt.strftime("%Y-%m-%d")` on Linux/glibc: month and day are zero-padded
to two digits, but `%Y` prints the year without padding (e.g. year 500
renders as `"500"`, not `"0500"`). -/
def formatISO (y m d : Nat) : List Char :=
  natToChars y ++ '-' :: (padZeros 2 m ++ '-' :: padZeros 2 d)

/-- One `strptime` attempt plus the `datetime` validity rules (year at least
1 — `datetime.MINYEAR` — and day within the month, ValueError otherwise). -/
def strptimeValid (months : List (List Char)) (comma : Bool) (s : List Char) :
    Option (List Char) :=
  match strptimeMDY months comma s with
  | none => none
  | some (y, m, d) =>
      if 1 ≤ y ∧ d ≤ daysInMonth y m then some (formatISO y m d) else none

/-- The format list `("%B %d, %Y", "%b %d, %Y", "%B %d %Y", "%b %d %Y")`. -/
def tryFormats (s : List Char) : Option (List Char) :=
  match strptimeValid fullMonths true s with
  | some r => some r
  | none =>
      match strptimeValid abbrMonths true s with
      | some r => some r
      | none =>
          match strptimeValid fullMonths false s with
          | some r => some r
          | none => strptimeValid abbrMonths false s

/-- `_to_iso`: accept ISO `YYYY-MM-DD` unchanged, else strip ordinal
suffixes and try the month-name formats; `none` when nothing parses. -/
def toIso (dateStr : List Char) : Option (List Char) :=
  let s := pyStrip dateStr
  if s = [] then none
  else if isoShape s then some s
  else tryFormats (stripOrdinals s)

/-! ### `_extract_iso_dates` -/

/-- `token` from `_extract_iso_dates`'s loop body: append the inferred year
when the token has no year of its own and a year was found in the text. -/
def tokenWithYear (iy : Option (List Char)) (tok : List Char) : List Char :=
  if (searchYear tok).isNone && iy.isSome then
    appendYearRe (stripOrdWords tok) (iy.getD [])
  else tok

/-- `sorted(set(out))`: deduplicate and sort ascending (lexicographic by
code point, as Python string comparison). -/
def sortedDedup (l : List (List Char)) : List (List Char) :=
  List.insertionSort (· ≤ ·) l.dedup

/-- `_extract_iso_dates`: ISO substrings, plus month-name tokens normalized
(with year inference from the first year anywhere in the text), deduplicated
and sorted. -/
def extractIsoDates (text : List Char) : List (List Char) :=
  if text = [] then []
  else
    let isoPart := isoMatches text
    let monthPart :=
      match dateTokens text with
      | [] => []
      | toks => toks.filterMap fun tok => toIso (tokenWithYear (searchYear text) tok)
    sortedDedup (isoPart ++ monthPart)

/-! ## `_extract_evaluations`

Weights: the source stores `float(m.group(1))` (an integer value) per
candidate and normalizes with float arithmetic.  Candidates carry the parsed
`Nat`; normalized weights are exact rationals, with `round(x, 2)` modelled as
round-half-to-even to two decimal places (Python's rounding on every exactly
representable value).  Note the `Assessment` model in `app/models.py`
declares `weight: int`; the separate `AssessmentModel` below mirrors that
declaration, while the parser's computed values are rationals. -/

/-- `str.split()`: split on whitespace runs, discarding empties. -/
def splitWsGo : List Char → List Char → List (List Char)
  | buf, [] => if buf = [] then [] else [buf.reverse]
  | buf, c :: rest =>
      if ws c then
        if buf = [] then splitWsGo [] rest else buf.reverse :: splitWsGo [] rest
      else splitWsGo (c :: buf) rest

def pySplitWs (l : List Char) : List (List Char) := splitWsGo [] l

/-- `" ".join(raw.split())`. -/
def collapseWs (l : List Char) : List Char :=
  List.intercalate [' '] (pySplitWs l)

def charsToNat (l : List Char) : Nat := l.foldl (fun a c => 10 * a + dv c) 0

/-- `(\d{1,3})(?:\s*%)` matches at this position: the digit run here must
have length 1–3 (a longer run leaves a digit where `%` is required, under
any backtracking choice) and be followed by optional whitespace and `%`. -/
def percentAt (l : List Char) : Option Nat :=
  let run := l.takeWhile isDigit
  if run.length = 0 ∨ 4 ≤ run.length then none
  else
    let r := l.drop run.length
    match r.drop (r.takeWhile ws).length with
    | '%' :: _ => some (charsToNat run)
    | _ => none

/-- `percent_re.search(line)`: value of the first percent match. -/
def percentScan : Nat → List Char → Option Nat
  | 0, _ => none
  | _ + 1, [] => none
  | fuel + 1, c :: rest =>
      match percentAt (c :: rest) with
      | some v => some v
      | none => percentScan fuel rest

def percentSearch (l : List Char) : Option Nat := percentScan l.length l

/-- One atom of a keyword pattern: a literal (case-insensitive) character or
the class `[-\s]` of `mid[-\s]?term`. -/
inductive PatAtom where
  | lit (c : Char)
  | wsOrDash
deriving DecidableEq

/-- Match a pattern at the head of the text, returning the consumed length. -/
def patMatch : List PatAtom → List Char → Option Nat
  | [], _ => some 0
  | _ :: _, [] => none
  | .lit p :: ps, x :: xs =>
      if eqCI p x then (patMatch ps xs).map (· + 1) else none
  | .wsOrDash :: ps, x :: xs =>
      if x = '-' || ws x then (patMatch ps xs).map (· + 1) else none

def litPat (s : String) : List PatAtom := s.toList.map PatAtom.lit

/-- `\b` between two (optional) characters: exactly one side is a word
character (absent counts as non-word). -/
def wbBetween (a b : Option Char) : Bool := isWordOpt a != isWordOpt b

/-- `re.search(r"\b(alt|...)\b", line)` as a Boolean: some alternative
matches at some position with word boundaries on both sides. -/
def patHitAt (pats : List (List PatAtom)) (prev : Option Char)
    (l : List Char) : Bool :=
  pats.any fun p =>
    match patMatch p l with
    | some n =>
        0 < n && wbBetween prev (l.take n).head? &&
          wbBetween (l.take n).getLast? (l.drop n).head?
    | none => false

def patScan (pats : List (List PatAtom)) : Nat → Option Char → List Char → Bool
  | 0, _, _ => false
  | _ + 1, _, [] => false
  | fuel + 1, prev, c :: rest =>
      patHitAt pats prev (c :: rest) || patScan pats fuel (some c) rest

def patSearch (pats : List (List PatAtom)) (l : List Char) : Bool :=
  patScan pats l.length none l

/-- The allow-list
`\b(assign(ment)?s?|mid[-\s]?term|final( exam| examination)?|quiz(zes)?|project(s)?|lab(s|oratory)?|participation|presentation|report|homework|tutorials?)\b`,
with every optional group expanded into explicit alternatives. -/
def allowPats : List (List PatAtom) :=
  [litPat "assign", litPat "assigns", litPat "assignment", litPat "assignments",
   litPat "midterm", litPat "mid" ++ [PatAtom.wsOrDash] ++ litPat "term",
   litPat "final", litPat "final exam", litPat "final examination",
   litPat "quiz", litPat "quizzes", litPat "project", litPat "projects",
   litPat "lab", litPat "labs", litPat "laboratory",
   litPat "participation", litPat "presentation", litPat "report",
   litPat "homework", litPat "tutorial", litPat "tutorials"]

/-- The deny-list
`\b(policy|penal(ties|ty)|late|plagiarism|integrity|attendance|passing|use of english|accommodat(ion|ions)|senate|appeal|grade(?:\s+of)?|less than|<|>)\b`.
As a Boolean search, `grade(?:\s+of)?` is equivalent to `grade` alone: the
optional ` of` continuation can only match when the bare `grade\b` already
does (a character cannot be both a word character and whitespace). -/
def denyPats : List (List PatAtom) :=
  [litPat "policy", litPat "penalties", litPat "penalty", litPat "late",
   litPat "plagiarism", litPat "integrity", litPat "attendance",
   litPat "passing", litPat "use of english", litPat "accommodation",
   litPat "accommodations", litPat "senate", litPat "appeal", litPat "grade",
   litPat "less than", litPat "<", litPat ">"]

/-- `re.split(r"\s{2,}|\t|\s-\s|:\s", name)[0]`: the text before the first
match of any separator alternative. -/
def splitScan : List Char → List Char
  | [] => []
  | c :: rest =>
      if c = '\t' then []
      else if ws c then
        match rest with
        | [] => [c]
        | d :: rest2 =>
            if ws d then []
            else if d = '-' && (match rest2 with
                | e :: _ => ws e
                | [] => false) then []
            else c :: splitScan rest
      else if c = ':' && (match rest with
          | e :: _ => ws e
          | [] => false) then []
      else c :: splitScan rest

/-- `\s*\(*\d{1,3}\s*%\)*` matches at this position (all character classes
involved are pairwise disjoint, so each greedy run is forced). -/
def pctRunAt (l : List Char) : Option Nat :=
  let w := (l.takeWhile ws).length
  let r1 := l.drop w
  let p := (r1.takeWhile (· = '(')).length
  let r2 := r1.drop p
  let d := (r2.takeWhile isDigit).length
  if d = 0 ∨ 4 ≤ d then none
  else
    let r3 := r2.drop d
    let w2 := (r3.takeWhile ws).length
    match r3.drop w2 with
    | '%' :: r4 => some (w + p + d + w2 + 1 + (r4.takeWhile (· = ')')).length)
    | _ => none

/-- `re.sub(r"\s*\(*\d{1,3}\s*%\)*", "", name)`. -/
def scanPct : Nat → List Char → List Char
  | 0, l => l
  | _ + 1, [] => []
  | fuel + 1, c :: rest =>
      match pctRunAt (c :: rest) with
      | some n => scanPct fuel ((c :: rest).drop n)
      | none => c :: scanPct fuel rest

/-- `re.sub(r"\s{2,}", " ", name)`: whitespace runs of length at least two
become a single space; single whitespace characters stay as they are. -/
def scanWs2 : Nat → List Char → List Char
  | 0, l => l
  | _ + 1, [] => []
  | fuel + 1, c :: rest =>
      if ws c then
        let run := (c :: rest).takeWhile ws
        if 2 ≤ run.length then ' ' :: scanWs2 fuel ((c :: rest).drop run.length)
        else c :: scanWs2 fuel rest
      else c :: scanWs2 fuel rest

/-- `str.strip(chars)`: strip any of the given characters at both ends. -/
def stripSet (S : List Char) (l : List Char) : List Char :=
  (((l.dropWhile (· ∈ S)).reverse).dropWhile (· ∈ S)).reverse

/-- `re.sub(r"^\d+\s+", "", name)`. -/
def stripLeadNum (l : List Char) : List Char :=
  let d := (l.takeWhile isDigit).length
  if d = 0 then l
  else
    let r := l.drop d
    let w := (r.takeWhile ws).length
    if w = 0 then l else r.drop w

/-- The candidate-name derivation of `_extract_evaluations` (split, percent
removal, whitespace collapse, strips, leading count removal, 8-word cap). -/
def deriveName (line : List Char) : List Char :=
  let n1 := splitScan line
  let n2 := scanPct n1.length n1
  let n3 := stripSet (" -:\t".toList) (scanWs2 n2.length n2)
  let n4 := pyStrip (stripLeadNum n3)
  let words := pySplitWs n4
  if 8 < words.length then List.intercalate [' '] (words.take 8) else n4

/-- One loop iteration of `_extract_evaluations`: percent present, deny
absent, allow present, weight in `(0, 100]`, derived name of length at least
3. -/
def lineCandidate (raw : List Char) : Option (List Char × Nat) :=
  let line := collapseWs raw
  match percentSearch line with
  | none => none
  | some w =>
      if patSearch denyPats line then none
      else if !patSearch allowPats line then none
      else if !(0 < w && w ≤ 100) then none
      else
        let name := deriveName line
        if name.length < 3 then none else some (name, w)

def collectCandidates (lines : List (List Char)) : List (List Char × Nat) :=
  lines.filterMap lineCandidate

/-- `dedup[n] = max(w, dedup.get(n, 0.0))` on an insertion-ordered map. -/
def updAssoc : List (List Char × Nat) → List Char → Nat → List (List Char × Nat)
  | [], n, w => [(n, max w 0)]
  | (m, v) :: rest, n, w =>
      if m = n then (m, max w v) :: rest else (m, v) :: updAssoc rest n w

/-- Deduplicate candidates by name, keeping the maximum weight, preserving
first-occurrence order (Python dict semantics). -/
def dedupRows (cand : List (List Char × Nat)) : List (List Char × Nat) :=
  cand.foldl (fun acc p => updAssoc acc p.1 p.2) []

/-- The `Assessment` values the parser computes (weights as the exact
rationals the float code produces). -/
structure Assessment where
  name : List Char
  weight : ℚ
deriving DecidableEq

/-- The `Assessment` model as declared in `app/models.py`: `weight: int`. -/
structure AssessmentModel where
  name : List Char
  weight : ℤ
deriving DecidableEq

/-- Round half to even (Python `round` on exactly representable values). -/
def rhe (r : ℚ) : ℤ :=
  if r - ⌊r⌋ < 1/2 then ⌊r⌋
  else if 1/2 < r - ⌊r⌋ then ⌊r⌋ + 1
  else if ⌊r⌋ % 2 = 0 then ⌊r⌋ else ⌊r⌋ + 1

/-- `round(x, 2)`. -/
def round2 (q : ℚ) : ℚ := ((rhe (q * 100) : ℤ) : ℚ) / 100

def sumWeights (l : List Assessment) : ℚ := (l.map (·.weight)).sum

/-- `max(normalized, key=lambda a: a.weight).weight`. -/
def maxWeight : List Assessment → ℚ
  | [] => 0
  | a :: t => (t.map (·.weight)).foldl max a.weight

/-- `largest.weight = round(largest.weight + diff, 2)` applied to the first
element attaining the maximum (Python's `max` returns the first such). -/
def addToFirstMax (M d : ℚ) : List Assessment → List Assessment
  | [] => []
  | a :: t =>
      if a.weight = M then Assessment.mk a.name (round2 (a.weight + d)) :: t
      else a :: addToFirstMax M d t

/-- `diff = round(100 - sum(...), 2); if abs(diff) >= 0.05:` add the residual
to the (first) largest entry. -/
def fixupDiff (l : List Assessment) : List Assessment :=
  if 1/20 ≤ |round2 (100 - sumWeights l)| then
    addToFirstMax (maxWeight l) (round2 (100 - sumWeights l)) l
  else l

/-- The normalization tail of `_extract_evaluations` (lines 123-137):
empty-row and zero-total guards, scaling to 100 with 2-decimal rounding,
largest-entry residual fix when the rounded total is at least 0.05 off, and
final truncation to 10 entries. -/
def normalizeRows (rows : List (List Char × Nat)) : List Assessment :=
  if rows = [] then []
  else if (((rows.map (·.2)).sum : Nat) : ℚ) ≤ 0 then []
  else
    (fixupDiff (rows.map fun p =>
      Assessment.mk p.1
        (round2 ((p.2 : ℚ) / (((rows.map (·.2)).sum : Nat) : ℚ) * 100)))).take 10

/-- `_extract_evaluations`. -/
def extractEvaluations (lines : List (List Char)) : List Assessment :=
  normalizeRows (dedupRows (collectCandidates lines))

/-! ## `heuristic` and `parse_pdf_bytes` -/

/-- The `Event` model of `app/models.py`. -/
structure Event where
  title : List Char
  date : Option (List Char)
deriving DecidableEq

/-- The `ParseResult` model of `app/models.py`. -/
structure ParseResult where
  summary : List Char
  events : List Event
  evaluations : List Assessment

/-- Python `str.splitlines()` boundary characters. -/
def isLineBreak (c : Char) : Bool :=
  c = '\n' || c = '\r' || c = '\x0b' || c = '\x0c' || c = '\x1c' ||
    c = '\x1d' || c = '\x1e' || c = '\x85' || c = '\u2028' || c = '\u2029'

/-- `str.splitlines()` (with `\r\n` as a single break, no trailing empty). -/
def splitLinesGo : List Char → List Char → List (List Char)
  | buf, [] => if buf = [] then [] else [buf.reverse]
  | buf, '\r' :: '\n' :: rest => buf.reverse :: splitLinesGo [] rest
  | buf, c :: rest =>
      if isLineBreak c then buf.reverse :: splitLinesGo [] rest
      else splitLinesGo (c :: buf) rest

def splitLinesPy (l : List Char) : List (List Char) := splitLinesGo [] l

/-- Start position of the first `DATE_TOKEN_RE` match (for the title cut). -/
def scanTokStart : Nat → Nat → Option Char → List Char → Option Nat
  | 0, _, _, _ => none
  | _ + 1, _, _, [] => none
  | fuel + 1, i, prev, c :: rest =>
      if (dateTokenAt prev (c :: rest)).isSome then some i
      else scanTokStart fuel (i + 1) (some c) rest

/-- Start position of the first `\b\d{4}-\d{2}-\d{2}\b` match. -/
def scanIsoStart : Nat → Nat → Option Char → List Char → Option Nat
  | 0, _, _, _ => none
  | _ + 1, _, _, [] => none
  | fuel + 1, i, prev, c :: rest =>
      if isoAt prev (c :: rest) then some i
      else scanIsoStart fuel (i + 1) (some c) rest

/-- `DATE_TOKEN_RE.search(l) or re.search(r"\b\d{4}-\d{2}-\d{2}\b", l)`. -/
def firstDateStart (l : List Char) : Option Nat :=
  match scanTokStart l.length 0 none l with
  | some i => some i
  | none => scanIsoStart l.length 0 none l

/-- Per-line title of `heuristic`: text before the first date token,
stripped of `" -:\t"`, the whole line when that is empty, capped at 120. -/
def titleOf (l : List Char) : List Char :=
  let t := match firstDateStart l with
    | some i => stripSet (" -:\t".toList) (l.take i)
    | none => l
  (if t = [] then l else t).take 120

def startsWith : List Char → List Char → Bool
  | [], _ => true
  | _ :: _, [] => false
  | a :: as, b :: bs => a = b && startsWith as bs

def containsSub (n : List Char) : List Char → Bool
  | [] => startsWith n []
  | c :: rest => startsWith n (c :: rest) || containsSub n rest

def lowerList (l : List Char) : List Char := l.map lowerA

/-- `any(k in low for k in allow_keywords)` with the heuristic's keywords. -/
def keywordHit (l : List Char) : Bool :=
  ["exam", "midterm", "final", "quiz", "assignment", "project",
   "due"].any fun k => containsSub k.toList (lowerList l)

/-- The event loop of `heuristic`: per qualifying line, one event per
extracted date; the loop breaks only after a line's dates have all been
appended, when the total has reached 20. -/
def heuristicEventsGo : List (List Char) → List Event → List Event
  | [], acc => acc
  | l :: ls, acc =>
      if !keywordHit l then heuristicEventsGo ls acc
      else
        match extractIsoDates l with
        | [] => heuristicEventsGo ls acc
        | ds =>
            let acc2 := acc ++ ds.map fun d => Event.mk (titleOf l) (some d)
            if 20 ≤ acc2.length then acc2 else heuristicEventsGo ls acc2

/-- `heuristic(text)`. -/
def heuristic (text : List Char) : ParseResult :=
  let lines := ((splitLinesPy text).map pyStrip).filter (· ≠ [])
  ParseResult.mk ((List.intercalate [' '] (lines.take 5)).take 400)
    (heuristicEventsGo lines []) (extractEvaluations lines)

/-! ### The orchestrator

`parse_pdf_bytes` is modelled on the text returned by the (out-of-scope)
PDF extraction collaborator; the LangChain call is an abstract input: either
a structured `LcSyllabus` value or an exception (any failure inside the
`try` block, carrying the exception's string rendering). -/

structure LcEvent where
  title : List Char
  date : Option (List Char)

structure LcEvaluation where
  name : List Char
  weight : ℚ

structure LcSyllabus where
  summary : List Char
  events : List LcEvent
  evaluations : List LcEvaluation

/-- `if not OPENAI_API_KEY`: `None` and the empty string are falsy. -/
def truthy : Option (List Char) → Bool
  | none => false
  | some s => s ≠ []

/-- The re-normalization pass of `parse_pdf_bytes` (lines 245-253), applied
when the total is positive and outside `[98, 102]`. -/
def normalizePass (evals : List Assessment) : List Assessment :=
  if 0 < sumWeights evals ∧
      (sumWeights evals < 98 ∨ 102 < sumWeights evals) then
    fixupDiff (evals.map fun e =>
      Assessment.mk e.name (round2 (e.weight / sumWeights evals * 100)))
  else evals

/-- Post-processing of the structured result's events (lines 221-229). -/
def lcEventsOut (events : List LcEvent) : List Event :=
  events.foldl
    (fun acc e =>
      let title := pyStrip e.title
      if title = [] then acc
      else acc ++ (extractIsoDates (pyStrip (e.date.getD []))).map
        fun d => Event.mk title (some d))
    []

/-- Post-processing of the structured result's evaluations (lines 235-240):
keep entries with a non-empty name and weight in `[0, 200]`. -/
def lcEvalsOut (evals : List LcEvaluation) : List Assessment :=
  evals.foldl
    (fun acc ev =>
      let name := pyStrip ev.name
      if name ≠ [] ∧ 0 ≤ ev.weight ∧ ev.weight ≤ 200 then
        acc ++ [Assessment.mk name ev.weight]
      else acc)
    []

/-- `parse_pdf_bytes`, given the extracted PDF text, the configured
credential, and the outcome of the external structured-extraction call. -/
def parsePdfBytes (raw : List Char) (apiKey : Option (List Char))
    (llm : Except (List Char) LcSyllabus) : ParseResult :=
  let text := cleanText raw
  if pyStrip text = [] then
    ParseResult.mk ("No text extracted.".toList) [] []
  else if !truthy apiKey then heuristic text
  else
    match llm with
    | .error e =>
        let fb := heuristic text
        ParseResult.mk
          (("(Fallback due to error: ".toList ++ e ++ ")\n".toList) ++
            fb.summary) fb.events fb.evaluations
    | .ok result =>
        let summary := pyStrip result.summary
        let eventsOut :=
          if lcEventsOut result.events = [] then (heuristic text).events
          else lcEventsOut result.events
        let evalsOut :=
          if lcEvalsOut result.evaluations = [] then
            extractEvaluations ((splitLinesPy text).map pyStrip)
          else lcEvalsOut result.evaluations
        let evalsFinal := if evalsOut ≠ [] then normalizePass evalsOut
          else evalsOut
        ParseResult.mk
          (if summary = [] then "No summary returned.".toList else summary)
          (eventsOut.take 20) evalsFinal

/-! ## Auxiliary definitions for the verification -/

/-- A valid calendar date by the `datetime` rules the parser relies on. -/
def validYMD (y m d : Nat) : Bool :=
  1 ≤ y && 1 ≤ m && m ≤ 12 && 1 ≤ d && d ≤ daysInMonth y m

/-- An ISO-shaped string denoting a valid calendar date. -/
def validISO (s : List Char) : Bool :=
  match s with
  | [a, b, c, d, '-', e, f, '-', g, i] =>
      isDigit a && isDigit b && isDigit c && isDigit d && isDigit e &&
      isDigit f && isDigit g && isDigit i &&
      validYMD (((dv a * 10 + dv b) * 10 + dv c) * 10 + dv d)
        (dv e * 10 + dv f) (dv g * 10 + dv i)
  | _ => false

/-- Largest number of dates extracted from a single (stripped, non-empty)
line of the text — the heuristic event loop's overshoot margin. -/
def maxLineDates (t : List Char) : Nat :=
  (((splitLinesPy t).map pyStrip).filter (· ≠ [])).foldr
    (fun l m => max (extractIsoDates l).length m) 0

/-- An integer number of hundredths (the image of `round2`). -/
def Centi (q : ℚ) : Prop := ∃ z : ℤ, q = (z : ℚ) / 100

/-- Association-list lookup on candidate rows. -/
def lookupRow (n : List Char) : List (List Char × Nat) → Option Nat
  | [] => none
  | (m, v) :: rest => if m = n then some v else lookupRow n rest

/-- The weights observed for one name, in order. -/
def occList (n : List Char) (cand : List (List Char × Nat)) : List Nat :=
  cand.filterMap fun p => if p.1 = n then some p.2 else none

/-- The running-maximum step of the dict fold, seen through `lookupRow`. -/
def dictMaxStep (o : Option Nat) (w : Nat) : Option Nat :=
  some (max w (o.getD 0))

/-- Eleven distinct assessment lines of weight 10% each: the normalizer's
output sums to 100 before truncation, but the returned ten entries do not. -/
def elevenLines : List (List Char) :=
  ["Assignment alpha 10%", "Assignment beta 10%", "Assignment gamma 10%",
   "Assignment delta 10%", "Assignment epsilon 10%", "Assignment zeta 10%",
   "Assignment eta 10%", "Assignment theta 10%", "Assignment iota 10%",
   "Assignment kappa 10%", "Assignment lambda 10%"].map String.toList

/-- The two-line syllabus whose candidate rows are `fracRows`. -/
def fracRows : List (List Char × Nat) :=
  [("Assignment alpha".toList, 30), ("Project".toList, 40)]

/-- The exact assessments `_extract_evaluations` computes from `fracRows`:
30/70 and 40/70 scaled to 100 and rounded to two decimals. -/
def fracNorm : List Assessment :=
  [Assessment.mk ("Assignment alpha".toList) (2143/50),
   Assessment.mk ("Project".toList) (2857/50)]

/-- The candidate rows `elevenLines` produces. -/
def elevenRows : List (List Char × Nat) :=
  [("Assignment alpha".toList, 10), ("Assignment beta".toList, 10),
   ("Assignment gamma".toList, 10), ("Assignment delta".toList, 10),
   ("Assignment epsilon".toList, 10), ("Assignment zeta".toList, 10),
   ("Assignment eta".toList, 10), ("Assignment theta".toList, 10),
   ("Assignment iota".toList, 10), ("Assignment kappa".toList, 10),
   ("Assignment lambda".toList, 10)]

/-- The eleven scaled-and-rounded assessments built from `elevenRows`:
each weight is `round(10 / 110 * 100, 2) = 9.09`. -/
def elevenNorm : List Assessment :=
  ["Assignment alpha", "Assignment beta", "Assignment gamma",
   "Assignment delta", "Assignment epsilon", "Assignment zeta",
   "Assignment eta", "Assignment theta", "Assignment iota",
   "Assignment kappa", "Assignment lambda"].map
    fun s => Assessment.mk s.toList (909/100)

/-- The first ten entries of `elevenNorm`: what the `[:10]` slice keeps. -/
def tenNorm : List Assessment :=
  ["Assignment alpha", "Assignment beta", "Assignment gamma",
   "Assignment delta", "Assignment epsilon", "Assignment zeta",
   "Assignment eta", "Assignment theta", "Assignment iota",
   "Assignment kappa"].map
    fun s => Assessment.mk s.toList (909/100)

/-- Seven syllabus lines carrying three dates each: the heuristic event loop
breaks only after finishing a line, so it emits 21 events. -/
def sevenTripleLines : List Char :=
  List.intercalate ['\n']
    (List.replicate 7 ("Final exam 2025-01-01 2025-01-02 2025-01-03".toList))

/-- Eleven structured-output evaluations of weight 9 each: all pass the
name/weight filter, their total of 99 skips the re-normalization, and the
success path stores all eleven — there is no `[:10]` cap on that path. -/
def elevenQuiz : List LcEvaluation :=
  [LcEvaluation.mk ("Quiz".toList) 9, LcEvaluation.mk ("Quiz".toList) 9,
   LcEvaluation.mk ("Quiz".toList) 9, LcEvaluation.mk ("Quiz".toList) 9,
   LcEvaluation.mk ("Quiz".toList) 9, LcEvaluation.mk ("Quiz".toList) 9,
   LcEvaluation.mk ("Quiz".toList) 9, LcEvaluation.mk ("Quiz".toList) 9,
   LcEvaluation.mk ("Quiz".toList) 9, LcEvaluation.mk ("Quiz".toList) 9,
   LcEvaluation.mk ("Quiz".toList) 9]

/-- The eleven `Assessment` values the success path stores from
`elevenQuiz`. -/
def elevenNine : List Assessment :=
  List.replicate 11 (Assessment.mk ("Quiz".toList) 9)

/-- Two assessment lines whose normalized weights are not integers. -/
def fractionalLines : List (List Char) :=
  ["Assignment alpha 30%", "Project 40%"].map String.toList

theorem ws_of_blank {c : Char} (h : blank c = true) : ws c = true := by
  simp only [blank, Bool.or_eq_true, decide_eq_true_eq] at h
  rcases h with h | h <;> simp [ws, h]

theorem ne_dash_of_ws {c : Char} (h : ws c = true) : c ≠ '-' := by
  rintro rfl; simp [ws] at h

theorem ne_nl_of_blank {c : Char} (h : blank c = true) : c ≠ '\n' := by
  rintro rfl; simp [blank] at h

theorem takeWhile_all {p : Char → Bool} {pre : List Char} (l : List Char)
    (h : ∀ b ∈ pre, p b = true) :
    (pre ++ l).takeWhile p = pre ++ l.takeWhile p := by
  induction pre with
  | nil => rfl
  | cons a t ih =>
      have ha : p a = true := h a (by simp)
      simp only [List.cons_append, List.takeWhile_cons, ha, if_true]
      rw [ih fun b hb => h b (by simp [hb])]

theorem takeWhile_head_neg {p : Char → Bool} {l : List Char}
    (h : ∀ c ∈ l.head?, p c = false) : l.takeWhile p = [] := by
  cases l with
  | nil => rfl
  | cons a t => simp only [List.head?_cons, Option.mem_def, Option.some.injEq] at h
                simp [List.takeWhile_cons, h a rfl]

theorem takeWhile_prefix_mono {p : Char → Bool} (a b : List Char) :
    a.takeWhile p <+: (a ++ b).takeWhile p := by
  induction a with
  | nil => exact List.nil_prefix
  | cons x t ih =>
      simp only [List.cons_append, List.takeWhile_cons]
      cases hx : p x with
      | false => rw [if_neg (by simp [hx])]; exact List.nil_prefix
      | true => simpa [hx, List.cons_prefix_cons] using ih

/-! ### `NoHB` structural lemmas -/

theorem NoHB_nil : NoHB [] := trivial

theorem NoHB_cons {c : Char} {l : List Char} :
    NoHB (c :: l) ↔ (c = '-' → '\n' ∉ l.takeWhile ws) ∧ NoHB l := Iff.rfl

theorem NoHB.tail {c : Char} {l : List Char} (h : NoHB (c :: l)) : NoHB l := h.2

theorem NoHB_append_right {a b : List Char} (h : NoHB (a ++ b)) : NoHB b := by
  induction a with
  | nil => exact h
  | cons x t ih => exact ih h.2

theorem NoHB_append_left {a b : List Char} (h : NoHB (a ++ b)) : NoHB a := by
  induction a with
  | nil => trivial
  | cons x t ih =>
      refine ⟨fun hx => ?_, ih h.2⟩
      intro hm
      exact h.1 hx ((takeWhile_prefix_mono t b).subset hm)

theorem NoHB_of_no_dash {l : List Char} (h : ∀ c ∈ l, c ≠ '-') : NoHB l := by
  induction l with
  | nil => trivial
  | cons x t ih =>
      exact ⟨fun hx => absurd hx (h x (by simp)), ih fun c hc => h c (by simp [hc])⟩

theorem NoHB_append_of {pre t : List Char} (hp : ∀ c ∈ pre, c ≠ '-')
    (ht : NoHB t) : NoHB (pre ++ t) := by
  induction pre with
  | nil => exact ht
  | cons x q ih =>
      exact ⟨fun hx => absurd hx (hp x (by simp)),
        ih fun c hc => hp c (by simp [hc])⟩

theorem NoHB_of_prefix {a b : List Char} (h : NoHB b) (hab : a <+: b) : NoHB a := by
  obtain ⟨t, rfl⟩ := hab; exact NoHB_append_left h

theorem NoHB_of_suffix {a b : List Char} (h : NoHB b) (hab : a <:+ b) : NoHB a := by
  obtain ⟨t, rfl⟩ := hab; exact NoHB_append_right h

theorem takeWhile_of_all {p : Char → Bool} {pre : List Char}
    (h : ∀ b ∈ pre, p b = true) : pre.takeWhile p = pre := by
  simpa using @takeWhile_all p pre [] h

/-! ### The hyphen-join substitution: output shape and fixed points -/

theorem hyphenGo_head_not_ws :
    ∀ (l buf : List Char) (h : Bool) {c : Char},
      (hyphenGo (some (buf, h)) l).head? = some c → ws c = false := by
  intro l
  induction l with
  | nil =>
      intro buf h c hc
      by_cases hh : h = true <;> simp [hyphenGo, hh] at hc
      subst hc; decide
  | cons d rest ih =>
      intro buf h c hc
      by_cases hw : ws d = true
      · exact ih _ _ (by simpa [hyphenGo, hw] using hc)
      · simp only [hyphenGo, hw, if_false, Bool.false_eq_true] at hc
        by_cases hh : h = true
        · simp only [hh, if_true, List.nil_append] at hc
          by_cases hd : d = '-'
          · exact ih _ _ (by simpa [hd] using hc)
          · simp only [hd, if_false] at hc
            simp only [List.head?_cons, Option.some.injEq] at hc
            subst hc; simpa using hw
        · rw [if_neg hh] at hc
          simp only [List.cons_append, List.head?_cons, Option.some.injEq] at hc
          subst hc; decide

theorem noHB_hyphenGo :
    ∀ l : List Char,
      NoHB (hyphenGo none l) ∧
      ∀ buf h, (∀ b ∈ buf, ws b = true) → (h = false → '\n' ∉ buf) →
        NoHB (hyphenGo (some (buf, h)) l) := by
  intro l
  induction l with
  | nil =>
      refine ⟨trivial, fun buf h hb hn => ?_⟩
      by_cases hh : h = true
      · simp [hyphenGo, hh, NoHB]
      · have hh' : h = false := by revert hh; cases h <;> simp
        simp only [hyphenGo, hh', if_false, Bool.false_eq_true]
        refine ⟨fun _ => ?_, NoHB_of_no_dash fun c hc => ?_⟩
        · rw [takeWhile_of_all fun b hbmem => hb b (List.mem_reverse.mp hbmem)]
          exact fun hm => hn hh' (List.mem_reverse.mp hm)
        · exact ne_dash_of_ws (hb c (List.mem_reverse.mp hc))
  | cons d rest ih =>
      constructor
      · by_cases hd : d = '-'
        · simpa [hyphenGo, hd] using ih.2 [] false (by simp) (by simp)
        · simpa [hyphenGo, hd] using ⟨fun h => absurd h hd, ih.1⟩
      · intro buf h hb hn
        by_cases hw : ws d = true
        · simp only [hyphenGo, hw, if_true]
          refine ih.2 _ _ (fun b hbm => ?_) (fun hf => ?_)
          · rcases List.mem_cons.mp hbm with rfl | hbm
            · exact hw
            · exact hb b hbm
          · have h1 : h = false := by revert hf; cases h <;> simp
            have h2 : d ≠ '\n' := by
              revert hf; cases hdn : decide (d = '\n') <;> cases h <;>
                simp_all [decide_eq_true_eq]
            simp only [List.mem_cons]
            rintro (rfl | hm)
            · exact h2 rfl
            · exact hn h1 hm
        · simp only [hyphenGo, hw, if_false, Bool.false_eq_true]
          set cont := (if d = '-' then hyphenGo (some ([], false)) rest
            else d :: hyphenGo none rest) with hcont
          have hcne : NoHB cont := by
            rw [hcont]
            by_cases hd : d = '-'
            · simpa [hd] using ih.2 [] false (by simp) (by simp)
            · simpa [hd] using ⟨fun h => absurd h hd, ih.1⟩
          have hchead : cont.takeWhile ws = [] := by
            apply takeWhile_head_neg
            intro c hc
            rw [hcont] at hc
            by_cases hd : d = '-'
            · simp only [hd, if_true] at hc
              exact hyphenGo_head_not_ws _ _ _ hc
            · simp only [hd, if_false, List.head?_cons, Option.mem_def,
                Option.some.injEq] at hc
              subst hc; simpa using hw
          by_cases hh : h = true
          · simpa [hh] using hcne
          · have hh' : h = false := by revert hh; cases h <;> simp
            simp only [hh', if_false, Bool.false_eq_true, List.cons_append]
            refine ⟨fun _ => ?_, ?_⟩
            · rw [takeWhile_all cont fun b hbm => hb b (List.mem_reverse.mp hbm),
                hchead]
              simp only [List.append_nil]
              exact fun hm => hn hh' (List.mem_reverse.mp hm)
            · exact NoHB_append_of
                (fun c hc => ne_dash_of_ws (hb c (List.mem_reverse.mp hc))) hcne

theorem hyphenGo_fix :
    ∀ l : List Char,
      (NoHB l → hyphenGo none l = l) ∧
      ∀ buf, (∀ b ∈ buf, ws b = true) → '\n' ∉ buf → '\n' ∉ l.takeWhile ws →
        NoHB l → hyphenGo (some (buf, false)) l = '-' :: buf.reverse ++ l := by
  intro l
  induction l with
  | nil =>
      exact ⟨fun _ => rfl, fun buf _ _ _ _ => by simp [hyphenGo]⟩
  | cons d rest ih =>
      constructor
      · intro hno
        by_cases hd : d = '-'
        · subst hd
          have h1 : hyphenGo none ('-' :: rest) = hyphenGo (some ([], false)) rest := by
            simp [hyphenGo]
          rw [h1, ih.2 [] (by simp) (by simp) (hno.1 rfl) hno.2]
          simp
        · simp only [hyphenGo, hd, if_false]
          rw [ih.1 hno.2]
      · intro buf hb hn hnt hno
        by_cases hw : ws d = true
        · have hdn : d ≠ '\n' := by
            intro hdd; subst hdd
            exact hnt (by simp [List.takeWhile_cons, hw])
          have hnt' : '\n' ∉ rest.takeWhile ws := by
            intro hm
            exact hnt (by simp [List.takeWhile_cons, hw, hm])
          have hdecide : (false || decide (d = '\n')) = false := by simp [hdn]
          simp only [hyphenGo, hw, if_true, hdecide]
          rw [ih.2 (d :: buf)
            (fun b hbm => by
              rcases List.mem_cons.mp hbm with rfl | hbm
              · exact hw
              · exact hb b hbm)
            (by
              simp only [List.mem_cons]
              rintro (h1 | hm)
              · exact hdn h1.symm
              · exact hn hm)
            hnt' hno.2]
          simp
        · simp only [hyphenGo, hw, if_false, Bool.false_eq_true]
          by_cases hd : d = '-'
          · subst hd
            rw [if_pos rfl, ih.2 [] (by simp) (by simp) (hno.1 rfl) hno.2]
            simp
          · rw [if_neg hd, ih.1 hno.2]

/-- `re.sub(r"-\s*\n\s*", "", s)` leaves no occurrence of its own pattern. -/
theorem subHyphenNL_noHB (l : List Char) : NoHB (subHyphenNL l) :=
  (noHB_hyphenGo l).1

/-- Strings without the pattern `-\s*\n\s*` are fixed by the substitution. -/
theorem subHyphenNL_fix {l : List Char} (h : NoHB l) : subHyphenNL l = l :=
  (hyphenGo_fix l).1 h

theorem hyphenGo_noCR :
    ∀ l : List Char, '\r' ∉ l →
      '\r' ∉ hyphenGo none l ∧
      ∀ buf h, '\r' ∉ buf → '\r' ∉ hyphenGo (some (buf, h)) l := by
  intro l
  induction l with
  | nil =>
      intro _
      refine ⟨by simp [hyphenGo], fun buf h hbuf => ?_⟩
      by_cases hh : h = true
      · simp [hyphenGo, hh]
      · have hh' : h = false := by revert hh; cases h <;> simp
        simp only [hyphenGo, hh', if_false, Bool.false_eq_true, List.mem_cons]
        rintro (hc | hc)
        · exact absurd hc (by decide)
        · exact hbuf (List.mem_reverse.mp hc)
  | cons d rest ih =>
      intro hl
      have hdr : d ≠ '\r' := fun hdd => hl (by simp [hdd])
      have hrest : '\r' ∉ rest := fun hm => hl (by simp [hm])
      have ihr := ih hrest
      constructor
      · by_cases hd : d = '-'
        · simpa [hyphenGo, hd] using ihr.2 [] false (by simp)
        · simp only [hyphenGo, hd, if_false, List.mem_cons]
          rintro (rfl | hm)
          · exact hdr rfl
          · exact ihr.1 hm
      · intro buf h hbuf
        by_cases hw : ws d = true
        · simp only [hyphenGo, hw, if_true]
          refine ihr.2 _ _ ?_
          simp only [List.mem_cons]
          rintro (rfl | hm)
          · exact hdr rfl
          · exact hbuf hm
        · simp only [hyphenGo, hw, if_false, Bool.false_eq_true, List.mem_append]
          rintro (hm | hm)
          · by_cases hh : h = true
            · simp [hh] at hm
            · have hh' : h = false := by revert hh; cases h <;> simp
              simp only [hh', if_false, Bool.false_eq_true, List.mem_cons] at hm
              rcases hm with hm | hm
              · exact absurd hm (by decide)
              · exact hbuf (List.mem_reverse.mp hm)
          · by_cases hd : d = '-'
            · simp only [hd, if_true] at hm
              exact ihr.2 [] false (by simp) hm
            · simp only [hd, if_false, List.mem_cons] at hm
              rcases hm with rfl | hm
              · exact hdr rfl
              · exact ihr.1 hm

/-! ### The blank-before-newline substitution -/

theorem blanksGo_nil (buf : List Char) : blanksGo buf [] = buf.reverse := rfl

theorem blanksGo_cons (buf : List Char) (c : Char) (rest : List Char) :
    blanksGo buf (c :: rest) =
      if blank c then blanksGo (c :: buf) rest
      else if c = '\n' then '\n' :: blanksGo [] rest
      else buf.reverse ++ c :: blanksGo [] rest := rfl

theorem nlGo_nil (k : Nat) :
    nlGo k [] = List.replicate (if 3 ≤ k then 2 else k) '\n' := rfl

theorem nlGo_cons (k : Nat) (c : Char) (rest : List Char) :
    nlGo k (c :: rest) =
      if c = '\n' then nlGo (k + 1) rest
      else List.replicate (if 3 ≤ k then 2 else k) '\n' ++ c :: nlGo 0 rest := rfl

theorem R3_of_not_blank {a b : Char} (h : blank a = false) : R3 a b :=
  fun hc => by rw [hc.1] at h; cases h

theorem R3_of_ne_nl {a b : Char} (h : b ≠ '\n') : R3 a b := fun hc => h hc.2

theorem chainR3_of_all_blank {m : List Char} (h : ∀ b ∈ m, blank b = true) :
    List.Chain' R3 m := by
  induction m with
  | nil => exact List.chain'_nil
  | cons a t ih =>
      rw [List.chain'_cons']
      refine ⟨fun y hy => R3_of_ne_nl ?_, ih fun b hb => h b (by simp [hb])⟩
      exact ne_nl_of_blank (h y (by simp [List.mem_of_mem_head? hy]))

theorem noBN_blanksGo :
    ∀ (l buf : List Char), (∀ b ∈ buf, blank b = true) →
      List.Chain' R3 (blanksGo buf l) := by
  intro l
  induction l with
  | nil =>
      intro buf hb
      exact chainR3_of_all_blank fun b hbm => hb b (List.mem_reverse.mp hbm)
  | cons c rest ih =>
      intro buf hb
      by_cases hc : blank c = true
      · rw [blanksGo_cons, if_pos hc]
        refine ih _ fun b hbm => ?_
        rcases List.mem_cons.mp hbm with rfl | hbm
        · exact hc
        · exact hb b hbm
      · rw [blanksGo_cons, if_neg hc]
        by_cases hn : c = '\n'
        · rw [if_pos hn, List.chain'_cons']
          exact ⟨fun y _ => R3_of_not_blank (by decide), ih [] (by simp)⟩
        · rw [if_neg hn, List.chain'_append]
          refine ⟨chainR3_of_all_blank fun b hbm =>
              hb b (List.mem_reverse.mp hbm), ?_, ?_⟩
          · rw [List.chain'_cons']
            refine ⟨fun y _ => R3_of_not_blank ?_, ih [] (by simp)⟩
            revert hc; cases blank c <;> simp
          · intro x _ y hy
            simp only [List.head?_cons, Option.mem_def, Option.some.injEq] at hy
            exact R3_of_ne_nl (hy ▸ hn)

theorem noBN_fix :
    ∀ (l buf : List Char), (∀ b ∈ buf, blank b = true) →
      List.Chain' R3 (buf.reverse ++ l) → blanksGo buf l = buf.reverse ++ l := by
  intro l
  induction l with
  | nil => intro buf _ _; simp [blanksGo]
  | cons c rest ih =>
      intro buf hb hch
      by_cases hc : blank c = true
      · rw [blanksGo_cons, if_pos hc,
          ih (c :: buf)
            (fun b hbm => by
              rcases List.mem_cons.mp hbm with rfl | hbm
              · exact hc
              · exact hb b hbm)
            (by simpa [List.append_assoc] using hch)]
        simp
      · rw [blanksGo_cons, if_neg hc]
        by_cases hn : c = '\n'
        · subst hn
          cases buf with
          | nil =>
              simp only [List.reverse_nil, List.nil_append] at hch ⊢
              rw [if_pos trivial, ih [] (by simp) (by simpa using hch.tail)]
              simp
          | cons b bt =>
              exfalso
              rw [List.chain'_append] at hch
              have hj := hch.2.2 b (by simp [List.getLast?_append,
                List.getLast?_reverse]) '\n' (by simp)
              exact hj ⟨hb b (by simp), rfl⟩
        · rw [if_neg hn]
          have hch2 : List.Chain' R3 (c :: rest) :=
            (List.chain'_append.mp hch).2.1
          rw [ih [] (by simp) (by simpa using hch2.tail)]
          simp

/-! ### The newline-run substitution -/

theorem chainR3_replicate (n : Nat) : List.Chain' R3 (List.replicate n '\n') := by
  induction n with
  | zero => exact List.chain'_nil
  | succ m ih =>
      rw [List.replicate_succ, List.chain'_cons']
      exact ⟨fun y _ => R3_of_not_blank (by decide), ih⟩

theorem replicate_nl_shift (k : Nat) (l : List Char) :
    List.replicate k '\n' ++ '\n' :: l = List.replicate (k + 1) '\n' ++ l := by
  rw [List.replicate_succ', List.append_assoc]; rfl

theorem nlGo_head_nl :
    ∀ (l : List Char) (k : Nat), 1 ≤ k → (nlGo k l).head? = some '\n' := by
  intro l
  induction l with
  | nil =>
      intro k hk
      simp only [nlGo]
      by_cases h3 : 3 ≤ k
      · simp [h3]
      · rw [if_neg h3]
        cases k with
        | zero => omega
        | succ m => simp [List.replicate_succ]
  | cons c rest ih =>
      intro k hk
      by_cases hc : c = '\n'
      · simp only [nlGo, hc, if_true]
        exact ih (k + 1) (by omega)
      · simp only [nlGo, hc, if_false]
        by_cases h3 : 3 ≤ k
        · simp [h3]
        · rw [if_neg h3]
          cases k with
          | zero => omega
          | succ m => simp [List.replicate_succ]

theorem nlGo_zero_head (l : List Char) : (nlGo 0 l).head? = l.head? := by
  cases l with
  | nil => rfl
  | cons c rest =>
      by_cases hc : c = '\n'
      · rw [nlGo_cons, if_pos hc, nlGo_head_nl rest 1 (by omega), hc]
        rfl
      · simp [nlGo_cons, hc]

theorem noBN_nlGo :
    ∀ (l : List Char) (k : Nat),
      List.Chain' R3 (List.replicate k '\n' ++ l) → List.Chain' R3 (nlGo k l) := by
  intro l
  induction l with
  | nil =>
      intro k _
      exact chainR3_replicate _
  | cons c rest ih =>
      intro k hch
      by_cases hc : c = '\n'
      · subst hc
        simp only [nlGo, if_pos rfl]
        exact ih (k + 1) (by rwa [← replicate_nl_shift])
      · simp only [nlGo, hc, if_false]
        have hcr : List.Chain' R3 (c :: rest) :=
          (List.chain'_append.mp hch).2.1
        rw [List.chain'_append]
        refine ⟨chainR3_replicate _, ?_, ?_⟩
        · rw [List.chain'_cons']
          refine ⟨fun y hy => ?_, ih 0 (by simpa using hcr.tail)⟩
          rw [Option.mem_def, nlGo_zero_head] at hy
          exact (List.chain'_cons'.mp hcr).1 y hy
        · intro x _ y _
          exact R3_of_not_blank (by
            have : x = '\n' := by
              rename_i hx _
              exact List.eq_of_mem_replicate (List.mem_of_mem_getLast? hx)
            rw [this]; decide)

/-! ### `NoT3` structural lemmas -/

theorem NoT3_tail {a : Char} {t : List Char} (h : NoT3 (a :: t)) : NoT3 t := by
  match t with
  | [] => trivial
  | [b] => trivial
  | b :: c :: r => exact h.2

theorem NoT3_cons_of_ne {a : Char} {t : List Char} (ha : a ≠ '\n')
    (h : NoT3 t) : NoT3 (a :: t) := by
  match t with
  | [] => trivial
  | [b] => trivial
  | b :: c :: r => exact ⟨fun hc => ha hc.1, h⟩

theorem NoT3_cons_nl {c : Char} {t : List Char} (hc : c ≠ '\n')
    (h : NoT3 (c :: t)) : NoT3 ('\n' :: c :: t) := by
  match t with
  | [] => trivial
  | z :: r => exact ⟨fun hx => hc hx.2.1, h⟩

theorem NoT3_append_right {a b : List Char} (h : NoT3 (a ++ b)) : NoT3 b := by
  induction a with
  | nil => exact h
  | cons x t ih => exact ih (NoT3_tail h)

theorem NoT3_append_left {a b : List Char} (h : NoT3 (a ++ b)) : NoT3 a := by
  induction a with
  | nil => trivial
  | cons x t ih =>
      match t, h with
      | [], _ => trivial
      | [y], _ => trivial
      | y :: z :: r, h => exact ⟨h.1, ih h.2⟩

theorem NoT3_replicate {k : Nat} (hk : k ≤ 2) : NoT3 (List.replicate k '\n') := by
  match k, hk with
  | 0, _ => trivial
  | 1, _ => trivial
  | 2, _ => trivial

theorem NoT3_replicate_cons {k : Nat} {c : Char} {t : List Char} (hk : k ≤ 2)
    (hc : c ≠ '\n') (h : NoT3 (c :: t)) :
    NoT3 (List.replicate k '\n' ++ c :: t) := by
  match k, hk with
  | 0, _ => exact h
  | 1, _ => exact NoT3_cons_nl hc h
  | 2, _ => exact ⟨fun hx => hc hx.2.2, NoT3_cons_nl hc h⟩

theorem noT3_nlGo : ∀ (l : List Char) (k : Nat), NoT3 (nlGo k l) := by
  intro l
  induction l with
  | nil =>
      intro k
      simp only [nlGo]
      by_cases h3 : 3 ≤ k
      · rw [if_pos h3]; exact NoT3_replicate (by omega)
      · rw [if_neg h3]; exact NoT3_replicate (by omega)
  | cons c rest ih =>
      intro k
      by_cases hc : c = '\n'
      · simp only [nlGo, hc, if_true]; exact ih (k + 1)
      · simp only [nlGo, hc, if_false]
        have he : (if 3 ≤ k then 2 else k ⊓ 2) ≤ 2 := by split <;> omega
        by_cases h3 : 3 ≤ k
        · rw [if_pos h3]
          exact NoT3_replicate_cons (by omega) hc (NoT3_cons_of_ne hc (ih 0))
        · rw [if_neg h3]
          exact NoT3_replicate_cons (by omega) hc (NoT3_cons_of_ne hc (ih 0))

theorem noT3_fix :
    ∀ (l : List Char) (k : Nat), k ≤ 2 →
      NoT3 (List.replicate k '\n' ++ l) →
      nlGo k l = List.replicate k '\n' ++ l := by
  intro l
  induction l with
  | nil =>
      intro k hk _
      simp only [nlGo, List.append_nil]
      rw [if_neg (by omega)]
  | cons c rest ih =>
      intro k hk h
      by_cases hc : c = '\n'
      · subst hc
        have hk1 : k ≤ 1 := by
          rcases Nat.lt_or_ge k 2 with hlt | hge
          · omega
          · exfalso
            have hk2 : k = 2 := by omega
            subst hk2
            exact h.1 ⟨rfl, rfl, rfl⟩
        rw [nlGo_cons, if_pos rfl,
          ih (k + 1) (by omega) (by rwa [← replicate_nl_shift]),
          replicate_nl_shift]
      · rw [nlGo_cons, if_neg hc, if_neg (by omega),
          ih 0 (by omega) (by simpa using NoT3_tail (NoT3_append_right h))]
        simp

/-! ### `NoHB` is preserved by the later substitutions -/

theorem takeWhile_nl_blanksGo :
    ∀ (l buf : List Char), (∀ b ∈ buf, blank b = true) →
      '\n' ∉ (buf.reverse ++ l).takeWhile ws →
      '\n' ∉ (blanksGo buf l).takeWhile ws := by
  intro l
  induction l with
  | nil =>
      intro buf hb hn
      simpa [blanksGo_nil] using hn
  | cons c rest ih =>
      intro buf hb hn
      by_cases hc : blank c = true
      · rw [blanksGo_cons, if_pos hc]
        refine ih (c :: buf)
          (fun b hbm => by
            rcases List.mem_cons.mp hbm with rfl | hbm
            · exact hc
            · exact hb b hbm)
          (by simpa [List.append_assoc] using hn)
      · rw [blanksGo_cons, if_neg hc]
        have hwbuf : ∀ b ∈ buf.reverse, ws b = true :=
          fun b hbm => ws_of_blank (hb b (List.mem_reverse.mp hbm))
        by_cases hnl : c = '\n'
        · exfalso
          apply hn
          rw [takeWhile_all _ hwbuf]
          simp [List.takeWhile_cons, hnl, ws]
        · rw [if_neg hnl]
          rw [takeWhile_all _ hwbuf] at hn
          by_cases hw : ws c = true
          · rw [takeWhile_all _ hwbuf]
            simp only [List.takeWhile_cons, hw, if_true, List.mem_append,
              List.mem_cons] at hn ⊢
            push_neg at hn ⊢
            refine ⟨hn.1, Ne.symm hnl, ?_⟩
            have hrest : '\n' ∉ rest.takeWhile ws := hn.2.2
            have := ih [] (by simp) (by simpa using hrest)
            exact this
          · rw [takeWhile_all _ hwbuf]
            simp only [List.takeWhile_cons, hw, if_false, Bool.false_eq_true,
              List.mem_append] at hn ⊢
            push_neg at hn ⊢
            exact ⟨hn.1, by simp⟩

theorem noHB_blanksGo :
    ∀ (l buf : List Char), (∀ b ∈ buf, blank b = true) →
      NoHB (buf.reverse ++ l) → NoHB (blanksGo buf l) := by
  intro l
  induction l with
  | nil =>
      intro buf hb _
      rw [blanksGo_nil]
      exact NoHB_of_no_dash fun c hc =>
        ne_dash_of_ws (ws_of_blank (hb c (List.mem_reverse.mp hc)))
  | cons c rest ih =>
      intro buf hb h
      by_cases hc : blank c = true
      · rw [blanksGo_cons, if_pos hc]
        refine ih (c :: buf)
          (fun b hbm => by
            rcases List.mem_cons.mp hbm with rfl | hbm
            · exact hc
            · exact hb b hbm)
          (by simpa [List.append_assoc] using h)
      · rw [blanksGo_cons, if_neg hc]
        have hcr : NoHB (c :: rest) := NoHB_append_right h
        by_cases hnl : c = '\n'
        · rw [if_pos hnl]
          exact ⟨fun hd => absurd hd (by decide), ih [] (by simp) hcr.2⟩
        · rw [if_neg hnl]
          refine NoHB_append_of
            (fun b hbm =>
              ne_dash_of_ws (ws_of_blank (hb b (List.mem_reverse.mp hbm))))
            ⟨fun hd => ?_, ih [] (by simp) hcr.2⟩
          exact takeWhile_nl_blanksGo rest [] (by simp) (by simpa using hcr.1 hd)

theorem takeWhile_nl_nlGo :
    ∀ l : List Char, '\n' ∉ l.takeWhile ws →
      '\n' ∉ (nlGo 0 l).takeWhile ws := by
  intro l
  induction l with
  | nil => intro h; simp [nlGo_nil]
  | cons c rest ih =>
      intro h
      by_cases hc : c = '\n'
      · exact absurd (by simp [List.takeWhile_cons, hc, ws]) h
      · rw [nlGo_cons, if_neg hc]
        simp only [if_neg (by omega : ¬3 ≤ 0), List.replicate_zero,
          List.nil_append]
        by_cases hw : ws c = true
        · simp only [List.takeWhile_cons, hw, if_true, List.mem_cons] at h ⊢
          push_neg at h ⊢
          exact ⟨h.1, ih h.2⟩
        · simp [List.takeWhile_cons, hw]

theorem noHB_nlGo :
    ∀ (l : List Char) (k : Nat),
      NoHB (List.replicate k '\n' ++ l) → NoHB (nlGo k l) := by
  intro l
  induction l with
  | nil =>
      intro k _
      rw [nlGo_nil]
      exact NoHB_of_no_dash fun c hc => by
        rw [List.eq_of_mem_replicate hc]; decide
  | cons c rest ih =>
      intro k h
      by_cases hc : c = '\n'
      · rw [nlGo_cons, if_pos hc]
        refine ih (k + 1) ?_
        rw [← replicate_nl_shift]
        rwa [hc] at h
      · rw [nlGo_cons, if_neg hc]
        have hcr : NoHB (c :: rest) := NoHB_append_right h
        refine NoHB_append_of
          (fun b hbm => by rw [List.eq_of_mem_replicate hbm]; decide)
          ⟨fun hd => ?_, ih 0 (by simpa using hcr.2)⟩
        exact takeWhile_nl_nlGo rest (hcr.1 hd)

/-! ### Closure of the normal forms under `str.strip()` -/

theorem stripBack_eq_rdropWhile (l : List Char) :
    stripBack l = List.rdropWhile ws l := rfl

theorem stripFront_suffix (l : List Char) : stripFront l <:+ l :=
  List.dropWhile_suffix ws

theorem stripBack_prefix (l : List Char) : stripBack l <+: l := by
  rw [stripBack_eq_rdropWhile]; exact List.rdropWhile_prefix ws l

theorem pyStrip_infix (l : List Char) : pyStrip l <:+: l :=
  (( stripBack_prefix (stripFront l)).isInfix).trans
    (stripFront_suffix l).isInfix

theorem NoHB_of_infix {a b : List Char} (h : NoHB b) (hab : a <:+: b) :
    NoHB a := by
  obtain ⟨s, t, rfl⟩ := hab
  exact NoHB_append_left (NoHB_append_right (by rwa [← List.append_assoc]))

theorem NoT3_of_infix {a b : List Char} (h : NoT3 b) (hab : a <:+: b) :
    NoT3 a := by
  obtain ⟨s, t, rfl⟩ := hab
  exact NoT3_append_left (@NoT3_append_right s _
    (by rwa [← List.append_assoc]))

theorem stripFront_shape :
    ∀ l : List Char,
      stripFront l = [] ∨ ∃ c cs, stripFront l = c :: cs ∧ ws c = false := by
  intro l
  induction l with
  | nil => exact Or.inl rfl
  | cons d t ih =>
      by_cases hw : ws d = true
      · simpa [stripFront, List.dropWhile_cons, hw] using ih
      · refine Or.inr ⟨d, t, ?_, by simpa using hw⟩
        simp [stripFront, List.dropWhile_cons, hw]

theorem pyStrip_idem (l : List Char) : pyStrip (pyStrip l) = pyStrip l := by
  unfold pyStrip
  set x := stripFront l with hx
  have hfront : stripFront (stripBack x) = stripBack x := by
    rcases stripFront_shape l with hnil | ⟨c, cs, hcons, hwc⟩
    · rw [← hx] at hnil
      rw [hnil]; rfl
    · rw [← hx] at hcons
      rw [hcons]
      rcases hsb : stripBack (c :: cs) with _ | ⟨d, ds⟩
      · rfl
      · have hpre : d :: ds <+: c :: cs := hsb ▸ stripBack_prefix (c :: cs)
        obtain ⟨t, ht⟩ := hpre
        have ht' : d :: (ds ++ t) = c :: cs := by simpa using ht
        injection ht' with hdc _
        subst hdc
        simp [stripFront, List.dropWhile_cons, hwc]
  rw [hfront]
  show List.rdropWhile ws (List.rdropWhile ws x) = List.rdropWhile ws x
  exact List.rdropWhile_idempotent ws x

/-! ### Carriage returns -/

theorem subCR_eq_self {l : List Char} (h : '\r' ∉ l) : subCR l = l := by
  induction l with
  | nil => rfl
  | cons c rest ih =>
      have hc : c ≠ '\r' := fun hcc => h (by simp [hcc])
      simp only [subCR, List.map_cons, if_neg hc]
      have := ih fun hm => h (by simp [hm])
      simpa [subCR] using this

theorem blanksGo_subset :
    ∀ (l buf : List Char) {c : Char}, c ∈ blanksGo buf l → c ∈ buf ∨ c ∈ l := by
  intro l
  induction l with
  | nil => intro buf c h; exact Or.inl (List.mem_reverse.mp (by simpa [blanksGo_nil] using h))
  | cons d rest ih =>
      intro buf c h
      by_cases hd : blank d = true
      · rw [blanksGo_cons, if_pos hd] at h
        rcases ih _ h with hm | hm
        · rcases List.mem_cons.mp hm with rfl | hm
          · exact Or.inr (by simp)
          · exact Or.inl hm
        · exact Or.inr (by simp [hm])
      · rw [blanksGo_cons, if_neg hd] at h
        by_cases hn : d = '\n'
        · rw [if_pos hn] at h
          rcases List.mem_cons.mp h with rfl | hm
          · exact Or.inr (by simp [hn])
          · rcases ih _ hm with hm2 | hm2
            · exact absurd hm2 (List.not_mem_nil c)
            · exact Or.inr (by simp [hm2])
        · rw [if_neg hn] at h
          rcases List.mem_append.mp h with hm | hm
          · exact Or.inl (List.mem_reverse.mp hm)
          · rcases List.mem_cons.mp hm with rfl | hm2
            · exact Or.inr (by simp)
            · rcases ih _ hm2 with hm3 | hm3
              · exact absurd hm3 (List.not_mem_nil c)
              · exact Or.inr (by simp [hm3])

theorem nlGo_subset :
    ∀ (l : List Char) (k : Nat) {c : Char}, c ∈ nlGo k l → c = '\n' ∨ c ∈ l := by
  intro l
  induction l with
  | nil =>
      intro k c h
      rw [nlGo_nil] at h
      exact Or.inl (List.eq_of_mem_replicate h)
  | cons d rest ih =>
      intro k c h
      by_cases hd : d = '\n'
      · rw [nlGo_cons, if_pos hd] at h
        rcases ih _ h with hm | hm
        · exact Or.inl hm
        · exact Or.inr (by simp [hm])
      · rw [nlGo_cons, if_neg hd] at h
        rcases List.mem_append.mp h with hm | hm
        · exact Or.inl (List.eq_of_mem_replicate hm)
        · rcases List.mem_cons.mp hm with rfl | hm2
          · exact Or.inr (by simp)
          · rcases ih _ hm2 with hm3 | hm3
            · exact Or.inl hm3
            · exact Or.inr (by simp [hm3])

theorem noCR_pyStrip {l : List Char} (h : '\r' ∉ l) : '\r' ∉ pyStrip l :=
  fun hm => h (( pyStrip_infix l).subset hm)

/-! ### `_clean_text` is idempotent on carriage-return-free input -/

/-- All the normal-form invariants of `cleanText` output, for `'\r'`-free
input. -/
theorem cleanText_normal {l : List Char} (h : '\r' ∉ l) :
    '\r' ∉ cleanText l ∧ NoHB (cleanText l) ∧
      List.Chain' R3 (cleanText l) ∧ NoT3 (cleanText l) := by
  have h1 : '\r' ∉ subHyphenNL l := (hyphenGo_noCR l h).1
  have h2 : subCR (subHyphenNL l) = subHyphenNL l := subCR_eq_self h1
  have hbn : '\r' ∉ subBlanksNL (subHyphenNL l) := by
    intro hm
    rcases blanksGo_subset _ [] hm with hm' | hm'
    · exact absurd hm' (List.not_mem_nil _)
    · exact h1 hm'
  have hnn : '\r' ∉ subManyNL (subBlanksNL (subHyphenNL l)) := by
    intro hm
    rcases nlGo_subset _ 0 hm with hm' | hm'
    · exact absurd hm' (by decide)
    · exact hbn hm'
  have hhb1 : NoHB (subHyphenNL l) := subHyphenNL_noHB l
  have hhb2 : NoHB (subBlanksNL (subHyphenNL l)) :=
    noHB_blanksGo _ [] (by simp) (by simpa using hhb1)
  have hhb3 : NoHB (subManyNL (subBlanksNL (subHyphenNL l))) :=
    noHB_nlGo _ 0 (by simpa using hhb2)
  have hch1 : List.Chain' R3 (subBlanksNL (subHyphenNL l)) :=
    noBN_blanksGo _ [] (by simp)
  have hch2 : List.Chain' R3 (subManyNL (subBlanksNL (subHyphenNL l))) :=
    noBN_nlGo _ 0 (by simpa using hch1)
  have ht3 : NoT3 (subManyNL (subBlanksNL (subHyphenNL l))) := noT3_nlGo _ 0
  rw [cleanText, h2]
  refine ⟨noCR_pyStrip hnn, NoHB_of_infix hhb3 ( pyStrip_infix _),
    hch2.infix ( pyStrip_infix _), NoT3_of_infix ht3 ( pyStrip_infix _)⟩

/-- A string satisfying all the normal forms and stripped at both ends is a
fixed point of `cleanText`. -/
theorem cleanText_fixed {r : List Char} (hcr : '\r' ∉ r) (hhb : NoHB r)
    (hch : List.Chain' R3 r) (ht3 : NoT3 r) (hst : pyStrip r = r) :
    cleanText r = r := by
  rw [cleanText, subHyphenNL_fix hhb, subCR_eq_self hcr]
  rw [show subBlanksNL r = r from noBN_fix r [] (by simp) (by simpa using hch)]
  rw [show subManyNL r = r from noT3_fix r 0 (by omega) (by simpa using ht3)]
  exact hst

/-! ## Claim C5: the text cleaner -/

/-- C5 (amended): `_clean_text` is a total function, and it is idempotent on
every input containing no carriage return.  (On inputs with a carriage
return idempotence can fail, because the hyphen-join substitution runs
before carriage returns are normalized to newlines — see the
counterexample.) -/
theorem claim_C5_clean_idempotent (s : List Char) (h : '\r' ∉ s) :
    cleanText (cleanText s) = cleanText s := by
  obtain ⟨hcr, hhb, hch, ht3⟩ := cleanText_normal h
  exact cleanText_fixed hcr hhb hch ht3 (by rw [cleanText]; exact pyStrip_idem _)

/-- C5 counterexample: on `"a-\rb"` the first clean turns the carriage
return into a newline (yielding `"a-\nb"`), and only the second clean joins
the hyphenated break (yielding `"ab"`), so `clean` is not idempotent as
claimed. -/
theorem claim_C5_counterexample :
    cleanText (cleanText ("a-\rb".toList)) ≠ cleanText ("a-\rb".toList) := by
  decide

/-- C5 witness: the amended idempotence theorem applied to a concrete
carriage-return-free input. -/
theorem claim_C5_witness :
    '\r' ∉ ("syl-\n labus  \n\n\n\n  text ".toList) ∧
      cleanText (cleanText ("syl-\n labus  \n\n\n\n  text ".toList)) =
        cleanText ("syl-\n labus  \n\n\n\n  text ".toList) :=
  ⟨by decide, claim_C5_clean_idempotent _ (by decide)⟩

/-! ## Claim C7: `_to_iso` -/

theorem ws_of_digit {c : Char} (h : isDigit c = true) : ws c = false := by
  cases hw : ws c
  · rfl
  · exfalso
    simp only [ws, Bool.or_eq_true, decide_eq_true_eq] at hw
    rcases hw with ((((rfl | rfl) | rfl) | rfl) | rfl) | rfl <;>
      exact absurd h (by decide)

theorem dropWhile_eq_self_of_head {p : Char → Bool} {l : List Char}
    (h : ∀ c ∈ l.head?, p c = false) : l.dropWhile p = l := by
  cases l with
  | nil => rfl
  | cons a t =>
      have := h a (by simp)
      simp [List.dropWhile_cons, this]

theorem pyStrip_of_no_ws {s : List Char} (h : ∀ c ∈ s, ws c = false) :
    pyStrip s = s := by
  unfold pyStrip stripFront stripBack
  rw [dropWhile_eq_self_of_head fun c hc => h c (List.mem_of_mem_head? hc),
    dropWhile_eq_self_of_head fun c hc =>
      h c (List.mem_reverse.mp (List.mem_of_mem_head? hc)),
    List.reverse_reverse]

theorem isoShape_no_ws {s : List Char} (h : isoShape s = true) :
    ∀ c ∈ s, ws c = false := by
  rcases s with _ | ⟨a, _ | ⟨b, _ | ⟨c, _ | ⟨d, _ | ⟨h1, _ | ⟨e, _ | ⟨f,
    _ | ⟨h2, _ | ⟨g, _ | ⟨i, _ | ⟨x, t⟩⟩⟩⟩⟩⟩⟩⟩⟩⟩⟩
  all_goals try exact absurd h fun hh => Bool.noConfusion hh
  simp only [isoShape, Bool.and_eq_true, decide_eq_true_eq] at h
  obtain ⟨⟨⟨⟨⟨⟨⟨⟨⟨ha, hb⟩, hc⟩, hd⟩, hh1⟩, he⟩, hf⟩, hh2⟩, hg⟩, hi⟩ := h
  subst hh1; subst hh2
  intro x hx
  simp only [List.mem_cons, List.not_mem_nil, or_false] at hx
  rcases hx with rfl | rfl | rfl | rfl | rfl | rfl | rfl | rfl | rfl | rfl
  · exact ws_of_digit ha
  · exact ws_of_digit hb
  · exact ws_of_digit hc
  · exact ws_of_digit hd
  · decide
  · exact ws_of_digit he
  · exact ws_of_digit hf
  · decide
  · exact ws_of_digit hg
  · exact ws_of_digit hi

theorem isoShape_ne_nil {s : List Char} (h : isoShape s = true) : s ≠ [] := by
  rintro rfl; exact absurd h (by decide)

/-- C7: `_to_iso` returns an already-ISO-shaped token unchanged; on any
other input it strips ordinal suffixes from the stripped token and tries
the four fixed month-name formats; when none of them matches it returns
`none` — and, being a total function, it never signals an error. -/
theorem claim_C7_to_iso (s : List Char) :
    (isoShape s = true → toIso s = some s) ∧
    (pyStrip s = [] → toIso s = none) ∧
    (pyStrip s ≠ [] → isoShape (pyStrip s) = false →
      toIso s = tryFormats (stripOrdinals (pyStrip s))) ∧
    (isoShape (pyStrip s) = false →
      tryFormats (stripOrdinals (pyStrip s)) = none → toIso s = none) := by
  refine ⟨fun h => ?_, fun h => ?_, fun h1 h2 => ?_, fun h1 h2 => ?_⟩
  · have hstrip : pyStrip s = s := pyStrip_of_no_ws (isoShape_no_ws h)
    rw [toIso, hstrip, if_neg (isoShape_ne_nil h), if_pos h]
  · rw [toIso, h, if_pos rfl]
  · rw [toIso, if_neg h1, if_neg (by simp [h2])]
  · by_cases hnil : pyStrip s = []
    · rw [toIso, hnil, if_pos rfl]
    · rw [toIso, if_neg hnil, if_neg (by simp [h1]), h2]

/-- C7 witness: an ISO token passes through unchanged, and an unparsable
token yields `none`. -/
theorem claim_C7_witness :
    isoShape ("2025-01-02".toList) = true ∧
      toIso ("2025-01-02".toList) = some ("2025-01-02".toList) ∧
      toIso ("syllabus".toList) = none :=
  ⟨by decide, (claim_C7_to_iso _).1 (by decide),
    (claim_C7_to_iso _).2.2.2 (by decide) (by decide)⟩

/-! ## Claim C4: `_extract_iso_dates` -/

theorem extractIsoDates_mem (t s : List Char) :
    s ∈ extractIsoDates t ↔
      s ∈ isoMatches t ∨ ∃ tok ∈ dateTokens t,
        toIso (tokenWithYear (searchYear t) tok) = some s := by
  by_cases ht : t = []
  · subst ht
    simp [extractIsoDates, isoMatches, scanIso, dateTokens, scanDateTokens]
  · rw [extractIsoDates, if_neg ht]
    rw [sortedDedup,
      (List.perm_insertionSort (· ≤ ·) _).mem_iff, List.mem_dedup,
      List.mem_append]
    cases hdt : dateTokens t with
    | nil => simp
    | cons x xs => simp [List.mem_filterMap]

theorem extractIsoDates_sorted (t : List Char) :
    List.Sorted (· ≤ ·) (extractIsoDates t) := by
  by_cases ht : t = []
  · subst ht; simp [extractIsoDates]
  · rw [extractIsoDates, if_neg ht]
    exact List.sorted_insertionSort _ _

theorem extractIsoDates_nodup (t : List Char) : (extractIsoDates t).Nodup := by
  by_cases ht : t = []
  · subst ht; simp [extractIsoDates]
  · rw [extractIsoDates, if_neg ht]
    exact (List.perm_insertionSort (· ≤ ·) _).symm.nodup (List.nodup_dedup _)

/-- C4: `_extract_iso_dates` returns exactly the ISO-shaped substrings plus
the normalizations of the month-name date tokens (the year inferred, when a
token lacks one, from the first 1900–2099 four-digit year anywhere in the
same string), without duplicates and in ascending order. -/
theorem claim_C4_extract_dates (t : List Char) :
    List.Sorted (· ≤ ·) (extractIsoDates t) ∧ (extractIsoDates t).Nodup ∧
      ∀ s, s ∈ extractIsoDates t ↔
        s ∈ isoMatches t ∨ ∃ tok ∈ dateTokens t,
          toIso (tokenWithYear (searchYear t) tok) = some s :=
  ⟨extractIsoDates_sorted t, extractIsoDates_nodup t,
    fun s => extractIsoDates_mem t s⟩

/-- C4 witness: the theorem applied to the spec's own example string. -/
theorem claim_C4_witness :
    List.Sorted (· ≤ ·)
        (extractIsoDates ("Midterm Oct 3 and Final Dec 12, 2025".toList)) ∧
      "2025-10-03".toList ∈
        extractIsoDates ("Midterm Oct 3 and Final Dec 12, 2025".toList) :=
  ⟨(claim_C4_extract_dates _).1,
    ((claim_C4_extract_dates _).2.2 _).mpr
      (Or.inr ⟨"Oct 3".toList, by decide, by decide⟩)⟩

/-! ## Claim C6: stored event dates -/

theorem scanIso_shape :
    ∀ (fuel : Nat) (prev : Option Char) (l s : List Char),
      s ∈ scanIso fuel prev l → isoShape s = true := by
  intro fuel
  induction fuel with
  | zero => intro prev l s h; exact absurd h (List.not_mem_nil s)
  | succ n ih =>
      intro prev l s h
      cases l with
      | nil => exact absurd h (List.not_mem_nil s)
      | cons c rest =>
          by_cases hat : isoAt prev (c :: rest) = true
          · rw [scanIso, if_pos hat] at h
            rcases List.mem_cons.mp h with rfl | h2
            · have := hat
              simp only [isoAt, Bool.and_eq_true] at this
              exact this.1.2
            · exact ih _ _ _ h2
          · rw [scanIso, if_neg hat] at h
            exact ih _ _ _ h

theorem monthFindGo_bounds :
    ∀ (ms : List (List Char)) (i : Nat) (s r : List Char) (m : Nat),
      monthFindGo s ms i = some (m, r) → i ≤ m ∧ m < i + ms.length := by
  intro ms
  induction ms with
  | nil => intro i s r m h; exact absurd h (by simp [monthFindGo])
  | cons x xs ih =>
      intro i s r m h
      rw [monthFindGo] at h
      by_cases hx : startsWithCI x s = true
      · rw [if_pos hx] at h
        injection h with h'
        injection h' with h1 h2
        subst h1
        simp
      · rw [if_neg hx] at h
        have := ih (i + 1) s r m h
        constructor <;> [omega; (simp only [List.length_cons]; omega)]

theorem one_le_dv {c : Char} (h1 : '1' ≤ c) : 1 ≤ dv c := by
  have ha : 49 ≤ c.toNat := by rw [Char.le_def] at h1; exact h1
  have hb : '0'.toNat = 48 := rfl
  simp only [dv]
  omega

theorem mem_if_singleton {α : Type} {c : Prop} [Decidable c] {x y : α}
    (h : y ∈ if c then [x] else ([] : List α)) : c ∧ y = x := by
  by_cases hc : c
  · rw [if_pos hc] at h
    exact ⟨hc, by simpa using h⟩
  · rw [if_neg hc] at h
    exact absurd h (List.not_mem_nil _)

theorem dayCandidates_pos :
    ∀ (r : List Char) (d : Nat) (r2 : List Char),
      (d, r2) ∈ dayCandidates r → 1 ≤ d := by
  intro r d r2 h
  match r with
  | [] => exact absurd h (List.not_mem_nil _)
  | [a] =>
      rw [dayCandidates] at h
      obtain ⟨hc, heq⟩ := mem_if_singleton h
      injection heq with e1 _
      subst e1
      simp only [Bool.and_eq_true, decide_eq_true_eq] at hc
      exact one_le_dv hc.1
  | a :: b :: rest =>
      rw [dayCandidates] at h
      simp only [List.mem_append] at h
      rcases h with (((h | h) | h) | h) | h
      · obtain ⟨hc, heq⟩ := mem_if_singleton h
        injection heq with e1 _
        omega
      · obtain ⟨hc, heq⟩ := mem_if_singleton h
        injection heq with e1 _
        subst e1
        simp only [Bool.and_eq_true, Bool.or_eq_true, decide_eq_true_eq] at hc
        rcases hc.1 with rfl | rfl
        · have h1 : dv '1' = 1 := rfl
          omega
        · have h2 : dv '2' = 2 := rfl
          omega
      · obtain ⟨hc, heq⟩ := mem_if_singleton h
        injection heq with e1 _
        subst e1
        simp only [Bool.and_eq_true, decide_eq_true_eq] at hc
        exact one_le_dv hc.2.1
      · obtain ⟨hc, heq⟩ := mem_if_singleton h
        injection heq with e1 _
        subst e1
        simp only [Bool.and_eq_true, decide_eq_true_eq] at hc
        exact one_le_dv hc.1
      · obtain ⟨hc, heq⟩ := mem_if_singleton h
        injection heq with e1 _
        subst e1
        simp only [Bool.and_eq_true, decide_eq_true_eq] at hc
        exact one_le_dv hc.2.1

theorem firstDayParse_mem :
    ∀ (comma : Bool) (cs : List (Nat × List Char)) (d y : Nat),
      firstDayParse comma cs = some (d, y) → ∃ r, (d, r) ∈ cs := by
  intro comma cs
  induction cs with
  | nil => intro d y h; exact absurd h (by simp [firstDayParse])
  | cons p rest ih =>
      intro d y h
      rw [firstDayParse] at h
      rcases hp : parseRest comma p.2 with _ | y0
      · rw [hp] at h
        obtain ⟨r, hr⟩ := ih d y h
        exact ⟨r, by simp [hr]⟩
      · rw [hp] at h
        injection h with h'
        injection h' with h1 _
        subst h1
        exact ⟨p.2, by simp⟩

theorem strptimeMDY_out {months : List (List Char)} {comma : Bool}
    {s : List Char} {y m d : Nat}
    (h : strptimeMDY months comma s = some (y, m, d)) :
    1 ≤ m ∧ m ≤ months.length ∧ 1 ≤ d := by
  rw [strptimeMDY] at h
  rcases hmf : monthFind months s with _ | ⟨m0, r1⟩
  · rw [hmf] at h; exact absurd h (by simp)
  · rw [hmf] at h
    dsimp only at h
    by_cases hw : (r1.takeWhile ws).length = 0
    · rw [if_pos hw] at h; exact absurd h (by simp)
    · rw [if_neg hw] at h
      rcases hfd : firstDayParse comma
          (dayCandidates (r1.drop (r1.takeWhile ws).length)) with _ | ⟨d0, y0⟩
      · rw [hfd] at h; exact absurd h (by simp)
      · rw [hfd] at h
        injection h with h'
        injection h' with h1 h2
        injection h2 with h2 h3
        subst h1; subst h2; subst h3
        obtain ⟨r, hr⟩ := firstDayParse_mem _ _ _ _ hfd
        have hd := dayCandidates_pos _ _ _ hr
        have hm := monthFindGo_bounds months 1 s r1 m0 hmf
        exact ⟨hm.1, by omega, hd⟩

theorem strptimeValid_out {months : List (List Char)} {comma : Bool}
    {s out : List Char} (hlen : months.length = 12)
    (h : strptimeValid months comma s = some out) :
    ∃ y m d, validYMD y m d = true ∧ out = formatISO y m d := by
  rw [strptimeValid] at h
  rcases hmdy : strptimeMDY months comma s with _ | ⟨y, m, d⟩
  · rw [hmdy] at h; exact absurd h (by simp)
  · rw [hmdy] at h
    dsimp only at h
    by_cases hv : 1 ≤ y ∧ d ≤ daysInMonth y m
    · rw [if_pos hv] at h
      injection h with h'
      obtain ⟨hm1, hm2, hd1⟩ := strptimeMDY_out hmdy
      refine ⟨y, m, d, ?_, h'.symm⟩
      simp only [validYMD, Bool.and_eq_true, decide_eq_true_eq]
      exact ⟨⟨⟨⟨hv.1, hm1⟩, by omega⟩, hd1⟩, hv.2⟩
    · rw [if_neg hv] at h
      exact absurd h (by simp)

theorem toIso_out {x d : List Char} (h : toIso x = some d) :
    isoShape d = true ∨
      ∃ y m dd, validYMD y m dd = true ∧ d = formatISO y m dd := by
  rw [toIso] at h
  by_cases hnil : pyStrip x = []
  · rw [if_pos hnil] at h; exact absurd h (by simp)
  · rw [if_neg hnil] at h
    by_cases hshape : isoShape (pyStrip x) = true
    · rw [if_pos hshape] at h
      injection h with h'
      exact Or.inl (h' ▸ hshape)
    · rw [if_neg hshape] at h
      rw [tryFormats] at h
      rcases h1 : strptimeValid fullMonths true (stripOrdinals (pyStrip x))
        with _ | r1
      · rw [h1] at h
        rcases h2 : strptimeValid abbrMonths true (stripOrdinals (pyStrip x))
          with _ | r2
        · rw [h2] at h
          rcases h3 : strptimeValid fullMonths false (stripOrdinals (pyStrip x))
            with _ | r3
          · rw [h3] at h
            exact Or.inr (strptimeValid_out (by decide) h)
          · rw [h3] at h
            injection h with h'
            subst h'
            exact Or.inr (strptimeValid_out (by decide) h3)
        · rw [h2] at h
          injection h with h'
          subst h'
          exact Or.inr (strptimeValid_out (by decide) h2)
      · rw [h1] at h
        injection h with h'
        subst h'
        exact Or.inr (strptimeValid_out (by decide) h1)

/-- Every string produced by `_extract_iso_dates` is either an ISO-shaped
substring copied verbatim or the rendering of a validated calendar date. -/
theorem extractIsoDates_shape {t d : List Char} (h : d ∈ extractIsoDates t) :
    isoShape d = true ∨
      ∃ y m dd, validYMD y m dd = true ∧ d = formatISO y m dd := by
  rcases (extractIsoDates_mem t d).mp h with hm | ⟨tok, _, htok⟩
  · exact Or.inl (scanIso_shape _ _ _ _ hm)
  · exact toIso_out htok

theorem heuristicEventsGo_mem :
    ∀ (ls : List (List Char)) (acc : List Event) (e : Event),
      e ∈ heuristicEventsGo ls acc →
      e ∈ acc ∨ ∃ l ∈ ls, ∃ d ∈ extractIsoDates l, e = Event.mk (titleOf l) (some d) := by
  intro ls
  induction ls with
  | nil => intro acc e h; exact Or.inl h
  | cons l rest ih =>
      intro acc e h
      rw [heuristicEventsGo] at h
      by_cases hk : keywordHit l = true
      · simp only [hk, Bool.not_true, Bool.false_eq_true, if_false] at h
        rcases hd : extractIsoDates l with _ | ⟨d0, ds⟩
        · rw [hd] at h
          rcases ih _ _ h with hm | ⟨l2, hl2, hrest⟩
          · exact Or.inl hm
          · exact Or.inr ⟨l2, by simp [hl2], hrest⟩
        · rw [hd] at h
          dsimp only at h
          have hsplit :
              e ∈ acc ++ (d0 :: ds).map (fun d => Event.mk (titleOf l) (some d)) ∨
              ∃ l2 ∈ rest, ∃ d ∈ extractIsoDates l2,
                e = Event.mk (titleOf l2) (some d) := by
            by_cases hbr : 20 ≤ (acc ++ (d0 :: ds).map
                (fun d => Event.mk (titleOf l) (some d))).length
            · rw [if_pos hbr] at h
              exact Or.inl h
            · rw [if_neg hbr] at h
              rcases ih _ _ h with hm | hm
              · exact Or.inl hm
              · exact Or.inr hm
          rcases hsplit with hm | ⟨l2, hl2, hrest⟩
          · rcases List.mem_append.mp hm with hm2 | hm2
            · exact Or.inl hm2
            · obtain ⟨d, hdm, hde⟩ := List.mem_map.mp hm2
              exact Or.inr ⟨l, by simp, d, by rw [hd]; exact hdm, hde.symm⟩
          · exact Or.inr ⟨l2, by simp [hl2], hrest⟩
      · simp only [hk, Bool.not_false, if_true] at h
        rcases ih _ _ h with hm | ⟨l2, hl2, hrest⟩
        · exact Or.inl hm
        · exact Or.inr ⟨l2, by simp [hl2], hrest⟩

theorem heuristic_events_mem {t : List Char} {e : Event}
    (h : e ∈ (heuristic t).events) :
    ∃ l, ∃ d ∈ extractIsoDates l, e = Event.mk (titleOf l) (some d) := by
  rcases heuristicEventsGo_mem _ [] e h with hm | ⟨l, _, d, hd, he⟩
  · exact absurd hm (List.not_mem_nil e)
  · exact ⟨l, d, hd, he⟩

theorem lcEventsOut_mem :
    ∀ (evs : List LcEvent) (acc : List Event) (e : Event),
      e ∈ evs.foldl
        (fun acc e =>
          let title := pyStrip e.title
          if title = [] then acc
          else acc ++ (extractIsoDates (pyStrip (e.date.getD []))).map
            fun d => Event.mk title (some d)) acc →
      e ∈ acc ∨ ∃ title raw, ∃ d ∈ extractIsoDates raw,
        e = Event.mk title (some d) := by
  intro evs
  induction evs with
  | nil => intro acc e h; exact Or.inl h
  | cons v rest ih =>
      intro acc e h
      rw [List.foldl_cons] at h
      rcases ih _ e h with hm | hm
      · by_cases ht : pyStrip v.title = []
        · simp only [ht, if_pos rfl] at hm
          exact Or.inl hm
        · rw [if_neg ht] at hm
          rcases List.mem_append.mp hm with hm2 | hm2
          · exact Or.inl hm2
          · obtain ⟨d, hdm, hde⟩ := List.mem_map.mp hm2
            exact Or.inr ⟨pyStrip v.title, pyStrip (v.date.getD []), d, hdm,
              hde.symm⟩
      · exact Or.inr hm

theorem event_date_ok {e : Event}
    (h : ∃ l, ∃ d ∈ extractIsoDates l, e = Event.mk (titleOf l) (some d)) :
    ∃ dd, e.date = some dd ∧ (isoShape dd = true ∨
      ∃ y m d2, validYMD y m d2 = true ∧ dd = formatISO y m d2) := by
  obtain ⟨l, d, hd, rfl⟩ := h
  exact ⟨d, rfl, extractIsoDates_shape hd⟩

/-- C6 (amended): every stored event date is either an ISO-shaped substring
copied verbatim from the text — without calendar validation, so an invalid
date such as `2025-13-45` can be stored — or the rendering of a
calendar-validated month-name date.  This holds for the heuristic extractor
and for every result of the orchestrator. -/
theorem claim_C6_event_dates :
    (∀ (t : List Char) (e : Event), e ∈ (heuristic t).events →
      ∃ dd, e.date = some dd ∧ (isoShape dd = true ∨
        ∃ y m d2, validYMD y m d2 = true ∧ dd = formatISO y m d2)) ∧
    ∀ (raw : List Char) (key : Option (List Char))
      (llm : Except (List Char) LcSyllabus) (e : Event),
      e ∈ (parsePdfBytes raw key llm).events →
      ∃ dd, e.date = some dd ∧ (isoShape dd = true ∨
        ∃ y m d2, validYMD y m d2 = true ∧ dd = formatISO y m d2) := by
  have hheu : ∀ (t : List Char) (e : Event), e ∈ (heuristic t).events →
      ∃ dd, e.date = some dd ∧ (isoShape dd = true ∨
        ∃ y m d2, validYMD y m d2 = true ∧ dd = formatISO y m d2) :=
    fun t e h => event_date_ok (heuristic_events_mem h)
  refine ⟨hheu, fun raw key llm e h => ?_⟩
  unfold parsePdfBytes at h
  by_cases h1 : pyStrip (cleanText raw) = []
  · rw [if_pos h1] at h
    exact absurd h (List.not_mem_nil e)
  · rw [if_neg h1] at h
    by_cases h2 : truthy key = true
    · simp only [h2, Bool.not_true, Bool.false_eq_true, if_false] at h
      cases llm with
      | error msg => exact hheu _ e h
      | ok result =>
          simp only at h
          have h3 := List.mem_of_mem_take h
          by_cases h4 : lcEventsOut result.events = []
          · rw [if_pos h4] at h3
            exact hheu _ e h3
          · rw [if_neg h4] at h3
            rcases lcEventsOut_mem _ [] e h3 with hm | ⟨title, r2, d, hd, he⟩
            · exact absurd hm (List.not_mem_nil e)
            · exact ⟨d, by rw [he], extractIsoDates_shape hd⟩
    · have h2' : truthy key = false := by revert h2; cases truthy key <;> simp
      rw [h2', if_pos (show (!false) = true from by decide)] at h
      exact hheu _ e h

/-- C6 counterexample: the heuristic stores the ISO-shaped but
calendar-invalid date `2025-13-45` (month 13, day 45) rather than dropping
it. -/
theorem claim_C6_counterexample :
    (heuristic ("Final exam 2025-13-45".toList)).events =
      [Event.mk ("Final exam".toList) (some ("2025-13-45".toList))] ∧
    validISO ("2025-13-45".toList) = false :=
  ⟨by decide, by decide⟩

/-- C6 witness: the amended theorem applied to a concrete heuristic event. -/
theorem claim_C6_witness :
    ∃ dd, (Event.mk ("Final exam".toList) (some ("2025-13-45".toList))).date
        = some dd ∧ (isoShape dd = true ∨
      ∃ y m d2, validYMD y m d2 = true ∧ dd = formatISO y m d2) :=
  (claim_C6_event_dates).1 ("Final exam 2025-13-45".toList) _ (by decide)

/-! ## Claim C2: the orchestrator never raises -/

/-- C2: `parse_pdf_bytes` is a total function of the extracted text, the
credential, and the external call's outcome.  Whitespace-only text yields
the terminal empty result; a missing/empty credential yields the heuristic
result; an external-path failure is caught and converted to the heuristic
result with the annotated summary. -/
theorem claim_C2_parse_total (raw : List Char) (key : Option (List Char))
    (llm : Except (List Char) LcSyllabus) :
    (pyStrip (cleanText raw) = [] →
      parsePdfBytes raw key llm =
        ParseResult.mk ("No text extracted.".toList) [] []) ∧
    (pyStrip (cleanText raw) ≠ [] → truthy key = false →
      parsePdfBytes raw key llm = heuristic (cleanText raw)) ∧
    ∀ e, pyStrip (cleanText raw) ≠ [] → truthy key = true →
      llm = Except.error e →
      parsePdfBytes raw key llm = ParseResult.mk
        (("(Fallback due to error: ".toList ++ e ++ ")\n".toList) ++
          (heuristic (cleanText raw)).summary)
        (heuristic (cleanText raw)).events
        (heuristic (cleanText raw)).evaluations := by
  refine ⟨fun h1 => ?_, fun h1 h2 => ?_, fun e h1 h2 h3 => ?_⟩
  · unfold parsePdfBytes
    rw [if_pos h1]
  · unfold parsePdfBytes
    rw [if_neg h1, h2, if_pos (show (!false) = true from by decide)]
  · unfold parsePdfBytes
    rw [if_neg h1, h2, if_neg (by decide), h3]

/-- C2 witness: the failure branch of the theorem at concrete inputs. -/
theorem claim_C2_witness :
    pyStrip (cleanText ("Final exam Oct 3, 2025".toList)) ≠ [] ∧
      truthy (some ("k".toList)) = true ∧
      parsePdfBytes ("Final exam Oct 3, 2025".toList) (some ("k".toList))
          (Except.error ("boom".toList)) = ParseResult.mk
        (("(Fallback due to error: ".toList ++ "boom".toList ++
            ")\n".toList) ++
          (heuristic (cleanText ("Final exam Oct 3, 2025".toList))).summary)
        (heuristic (cleanText ("Final exam Oct 3, 2025".toList))).events
        (heuristic (cleanText ("Final exam Oct 3, 2025".toList))).evaluations :=
  ⟨by decide, by decide,
    (claim_C2_parse_total _ _ _).2.2 _ (by decide) (by decide) rfl⟩

/-! ## Claim C3: output size bounds -/

theorem extractEvaluations_le10 (lines : List (List Char)) :
    (extractEvaluations lines).length ≤ 10 := by
  rw [extractEvaluations, normalizeRows]
  split
  · simp
  · split
    · simp
    · rw [List.length_take]
      omega

theorem foldr_max_le (ls : List (List Char)) (l : List Char) (h : l ∈ ls) :
    (extractIsoDates l).length ≤
      ls.foldr (fun l m => max (extractIsoDates l).length m) 0 := by
  induction ls with
  | nil => exact absurd h (List.not_mem_nil l)
  | cons x rest ih =>
      rcases List.mem_cons.mp h with rfl | h2
      · simp [List.foldr_cons]
      · simp only [List.foldr_cons]
        exact le_trans (ih h2) (le_max_right _ _)

theorem heuristicEventsGo_len :
    ∀ (ls : List (List Char)) (acc : List Event) (M : Nat),
      (∀ l ∈ ls, (extractIsoDates l).length ≤ M) → acc.length < 20 →
      (heuristicEventsGo ls acc).length ≤ 19 + M := by
  intro ls
  induction ls with
  | nil =>
      intro acc M _ hacc
      rw [heuristicEventsGo]
      omega
  | cons l rest ih =>
      intro acc M hM hacc
      rw [heuristicEventsGo]
      by_cases hk : keywordHit l = true
      · simp only [hk, Bool.not_true, Bool.false_eq_true, if_false]
        rcases hd : extractIsoDates l with _ | ⟨d0, ds⟩
        · exact ih acc M (fun x hx => hM x (by simp [hx])) hacc
        · dsimp only
          have hlen : (acc ++ (d0 :: ds).map
              (fun d => Event.mk (titleOf l) (some d))).length ≤ 19 + M := by
            have h1 : (d0 :: ds).length ≤ M := by
              rw [← hd]; exact hM l (by simp)
            simp only [List.length_append, List.length_map]
            omega
          by_cases hbr : 20 ≤ (acc ++ (d0 :: ds).map
              (fun d => Event.mk (titleOf l) (some d))).length
          · rw [if_pos hbr]
            exact hlen
          · rw [if_neg hbr]
            exact ih _ M (fun x hx => hM x (by simp [hx])) (by omega)
      · simp only [hk, Bool.not_false, if_true]
        exact ih acc M (fun x hx => hM x (by simp [hx])) hacc

/-! ## Claim C9: heuristic event titles -/

theorem take_ne_nil_of_ne_nil {l : List Char} (h : l ≠ []) :
    l.take 120 ≠ [] := by
  cases l with
  | nil => exact absurd rfl h
  | cons c rest => simp [List.take_succ_cons]

theorem titleOf_ok {l : List Char} (h : l ≠ []) :
    titleOf l ≠ [] ∧ (titleOf l).length ≤ 120 := by
  rw [titleOf]
  constructor
  · set t := match firstDateStart l with
      | some i => stripSet (" -:\t".toList) (l.take i)
      | none => l with ht
    by_cases hte : t = []
    · rw [if_pos hte]
      exact take_ne_nil_of_ne_nil h
    · rw [if_neg hte]
      exact take_ne_nil_of_ne_nil hte
  · rw [List.length_take]
    omega

theorem heuristic_events_line {t : List Char} {e : Event}
    (h : e ∈ (heuristic t).events) :
    ∃ l ∈ ((splitLinesPy t).map pyStrip).filter (· ≠ []),
      ∃ d ∈ extractIsoDates l, e = Event.mk (titleOf l) (some d) := by
  rcases heuristicEventsGo_mem _ [] e h with hm | hm
  · exact absurd hm (List.not_mem_nil e)
  · exact hm

/-- C9: every heuristic event has a non-empty title of at most 120
characters; and on any line whose text before the first date token strips
to nothing, the whole line (truncated to 120) is used as the title. -/
theorem claim_C9_titles :
    (∀ (t : List Char) (e : Event), e ∈ (heuristic t).events →
      e.title ≠ [] ∧ e.title.length ≤ 120) ∧
    ∀ (l : List Char) (i : Nat), firstDateStart l = some i →
      stripSet (" -:\t".toList) (l.take i) = [] → titleOf l = l.take 120 := by
  constructor
  · intro t e h
    obtain ⟨l, hl, d, _, rfl⟩ := heuristic_events_line h
    have hlne : l ≠ [] := by
      have := (List.mem_filter.mp hl).2
      simpa using this
    exact titleOf_ok hlne
  · intro l i hfd hstrip
    rw [titleOf, hfd]
    dsimp only
    rw [hstrip, if_pos rfl]

/-- C9 witness: the title invariant at a concrete heuristic event, and the
fallback clause on a line that starts with its date. -/
theorem claim_C9_witness :
    ((Event.mk ("Final exam".toList) (some ("2025-13-45".toList))).title ≠ [] ∧
      (Event.mk ("Final exam".toList)
        (some ("2025-13-45".toList))).title.length ≤ 120) ∧
      titleOf ("2025-10-03 final exam".toList) =
        ("2025-10-03 final exam".toList).take 120 :=
  ⟨claim_C9_titles.1 ("Final exam 2025-13-45".toList) _ (by decide),
    claim_C9_titles.2 _ 0 (by decide) (by decide)⟩

/-! ## Claim C8: candidate deduplication keeps the maximum weight -/

theorem lineCandidate_pos {raw : List Char} {p : List Char × Nat}
    (h : lineCandidate raw = some p) : 0 < p.2 := by
  rw [lineCandidate] at h
  rcases hps : percentSearch (collapseWs raw) with _ | w
  · rw [hps] at h
    exact absurd h (by simp)
  · rw [hps] at h
    dsimp only at h
    by_cases h1 : patSearch denyPats (collapseWs raw) = true
    · rw [if_pos h1] at h
      exact absurd h (by simp)
    · rw [if_neg h1] at h
      by_cases h2 : (!patSearch allowPats (collapseWs raw)) = true
      · rw [if_pos h2] at h
        exact absurd h (by simp)
      · rw [if_neg h2] at h
        by_cases h3 : (!(0 < w && w ≤ 100)) = true
        · rw [if_pos h3] at h
          exact absurd h (by simp)
        · rw [if_neg h3] at h
          have hw : 0 < w := by
            have hb : (0 < w && w ≤ 100) = true := by
              revert h3; cases (0 < w && w ≤ 100) <;> simp
            simp only [Bool.and_eq_true, decide_eq_true_eq] at hb
            exact hb.1
          by_cases h4 : (deriveName (collapseWs raw)).length < 3
          · rw [if_pos h4] at h
            exact absurd h (by simp)
          · rw [if_neg h4] at h
            injection h with h'
            rw [← h']
            exact hw

theorem collectCandidates_pos {lines : List (List Char)}
    {p : List Char × Nat} (h : p ∈ collectCandidates lines) : 0 < p.2 := by
  obtain ⟨l, _, hl⟩ := List.mem_filterMap.mp h
  exact lineCandidate_pos hl

theorem updAssoc_keys (acc : List (List Char × Nat)) (n : List Char) (w : Nat) :
    (updAssoc acc n w).map (·.1) =
      if n ∈ acc.map (·.1) then acc.map (·.1) else acc.map (·.1) ++ [n] := by
  induction acc with
  | nil => simp [updAssoc]
  | cons p rest ih =>
      by_cases hp : p.1 = n
      · rw [show updAssoc (p :: rest) n w = (p.1, max w p.2) :: rest from by
          rw [updAssoc, if_pos hp]]
        simp [hp]
      · rw [show updAssoc (p :: rest) n w = p :: updAssoc rest n w from by
          rw [updAssoc, if_neg hp]]
        simp only [List.map_cons, ih, List.mem_cons]
        by_cases hm : n ∈ rest.map (·.1)
        · simp [hm, hp, Ne.symm hp]
        · simp [hm, hp, Ne.symm hp]

theorem updAssoc_keys_nodup {acc : List (List Char × Nat)} {n : List Char}
    {w : Nat} (h : (acc.map (·.1)).Nodup) :
    ((updAssoc acc n w).map (·.1)).Nodup := by
  rw [updAssoc_keys]
  by_cases hm : n ∈ acc.map (·.1)
  · rwa [if_pos hm]
  · rw [if_neg hm]
    refine List.nodup_append.mpr ⟨h, by simp, ?_⟩
    intro a ha hb
    rw [List.mem_singleton] at hb
    subst hb
    exact hm ha

theorem lookup_updAssoc_self (acc : List (List Char × Nat)) (n : List Char)
    (w : Nat) :
    lookupRow n (updAssoc acc n w) =
      some (max w ((lookupRow n acc).getD 0)) := by
  induction acc with
  | nil => simp [updAssoc, lookupRow]
  | cons p rest ih =>
      by_cases hp : p.1 = n
      · rw [show updAssoc (p :: rest) n w = (p.1, max w p.2) :: rest from by
          rw [updAssoc, if_pos hp]]
        rw [lookupRow, if_pos hp]
        rw [show lookupRow n (p :: rest) = some p.2 from by
          rw [lookupRow, if_pos hp]]
        rfl
      · rw [show updAssoc (p :: rest) n w = p :: updAssoc rest n w from by
          rw [updAssoc, if_neg hp]]
        rw [lookupRow, if_neg hp, ih,
          show lookupRow n (p :: rest) = lookupRow n rest from by
            rw [lookupRow, if_neg hp]]

theorem lookup_updAssoc_other {m n : List Char} (hne : m ≠ n)
    (acc : List (List Char × Nat)) (w : Nat) :
    lookupRow m (updAssoc acc n w) = lookupRow m acc := by
  induction acc with
  | nil =>
      rw [show updAssoc [] n w = [(n, max w 0)] from rfl]
      simp only [lookupRow]
      rw [if_neg fun hh => hne hh.symm]
  | cons p rest ih =>
      by_cases hp : p.1 = n
      · rw [show updAssoc (p :: rest) n w = (p.1, max w p.2) :: rest from by
          rw [updAssoc, if_pos hp]]
        by_cases hq : p.1 = m
        · exact absurd (hq ▸ hp) hne
        · rw [lookupRow, if_neg hq, lookupRow, if_neg hq]
      · rw [show updAssoc (p :: rest) n w = p :: updAssoc rest n w from by
          rw [updAssoc, if_neg hp]]
        by_cases hq : p.1 = m
        · rw [lookupRow, if_pos hq, lookupRow, if_pos hq]
        · rw [lookupRow, if_neg hq, lookupRow, if_neg hq, ih]

theorem dedup_lookup :
    ∀ (cand acc : List (List Char × Nat)) (n : List Char),
      lookupRow n (cand.foldl (fun a p => updAssoc a p.1 p.2) acc) =
        (occList n cand).foldl dictMaxStep (lookupRow n acc) := by
  intro cand
  induction cand with
  | nil => intro acc n; rfl
  | cons p rest ih =>
      intro acc n
      rw [List.foldl_cons, ih]
      by_cases hp : p.1 = n
      · rw [show occList n (p :: rest) = p.2 :: occList n rest from by
          simp [occList, List.filterMap_cons, hp]]
        rw [List.foldl_cons, hp, lookup_updAssoc_self]
        rfl
      · rw [show occList n (p :: rest) = occList n rest from by
          simp [occList, List.filterMap_cons, hp]]
        rw [lookup_updAssoc_other (fun h => hp h.symm)]

theorem dictFold_spec :
    ∀ (l : List Nat) (u : Nat),
      ∃ v, l.foldl dictMaxStep (some u) = some v ∧ (v = u ∨ v ∈ l) ∧
        u ≤ v ∧ ∀ x ∈ l, x ≤ v := by
  intro l
  induction l with
  | nil => intro u; exact ⟨u, rfl, Or.inl rfl, le_refl u, by simp⟩
  | cons w t ih =>
      intro u
      obtain ⟨v, heq, hv, hle, hb⟩ := ih (max w u)
      refine ⟨v, ?_, ?_, le_trans (le_max_right w u) hle, ?_⟩
      · rw [List.foldl_cons]
        exact heq
      · rcases hv with hv | hv
        · rcases max_choice w u with hm | hm
          · exact Or.inr (by simp [hv, hm])
          · exact Or.inl (by rw [hv, hm])
        · exact Or.inr (by simp [hv])
      · intro x hx
        rcases List.mem_cons.mp hx with rfl | hx
        · exact le_trans (le_max_left x u) hle
        · exact hb x hx

theorem lookupRow_isSome_iff (n : List Char) :
    ∀ rows : List (List Char × Nat),
      (lookupRow n rows).isSome = true ↔ n ∈ rows.map (·.1) := by
  intro rows
  induction rows with
  | nil => simp [lookupRow]
  | cons p rest ih =>
      by_cases hp : p.1 = n
      · rw [lookupRow, if_pos hp]
        simp [hp]
      · rw [lookupRow, if_neg hp]
        simp only [List.map_cons, List.mem_cons, ih]
        constructor
        · exact fun h => Or.inr h
        · rintro (h | h)
          · exact absurd h.symm hp
          · exact h

theorem occList_ne_nil_iff (n : List Char) :
    ∀ cand : List (List Char × Nat),
      occList n cand ≠ [] ↔ n ∈ cand.map (·.1) := by
  intro cand
  induction cand with
  | nil => simp [occList]
  | cons p rest ih =>
      by_cases hp : p.1 = n
      · rw [show occList n (p :: rest) = p.2 :: occList n rest from by
          simp [occList, List.filterMap_cons, hp]]
        simp [hp]
      · rw [show occList n (p :: rest) = occList n rest from by
          simp [occList, List.filterMap_cons, hp]]
        simp only [List.map_cons, List.mem_cons, ih]
        constructor
        · exact fun h => Or.inr h
        · rintro (h | h)
          · exact absurd h.symm hp
          · exact h

theorem mem_iff_lookup :
    ∀ {rows : List (List Char × Nat)}, (rows.map (·.1)).Nodup →
      ∀ (n : List Char) (v : Nat),
        ((n, v) ∈ rows ↔ lookupRow n rows = some v) := by
  intro rows
  induction rows with
  | nil => intro _ n v; simp [lookupRow]
  | cons p rest ih =>
      intro hnd n v
      simp only [List.map_cons, List.nodup_cons] at hnd
      by_cases hp : p.1 = n
      · rw [lookupRow, if_pos hp]
        simp only [List.mem_cons, Option.some.injEq]
        constructor
        · rintro (h | h)
          · rw [← h]
          · exact absurd (by rw [hp]; exact List.mem_map.mpr ⟨(n, v), h, rfl⟩)
              hnd.1
        · intro h
          exact Or.inl (by rw [← hp, ← h])
      · rw [lookupRow, if_neg hp, ← ih hnd.2 n v]
        simp only [List.mem_cons]
        constructor
        · rintro (h | h)
          · exact absurd (congrArg Prod.fst h).symm hp
          · exact h
        · exact fun h => Or.inr h

theorem dedupRows_keys_nodup :
    ∀ (cand acc : List (List Char × Nat)), (acc.map (·.1)).Nodup →
      ((cand.foldl (fun a p => updAssoc a p.1 p.2) acc).map (·.1)).Nodup := by
  intro cand
  induction cand with
  | nil => intro acc h; exact h
  | cons p rest ih =>
      intro acc h
      rw [List.foldl_cons]
      exact ih _ (updAssoc_keys_nodup h)

/-- C8: `_extract_evaluations` deduplicates candidates by exact name —
every candidate name survives exactly once — and the surviving weight of a
name is the maximum weight observed for it. -/
theorem claim_C8_dedup_max (lines : List (List Char)) :
    ((dedupRows (collectCandidates lines)).map (·.1)).Nodup ∧
    (∀ n : List Char, n ∈ (collectCandidates lines).map (·.1) ↔
      n ∈ (dedupRows (collectCandidates lines)).map (·.1)) ∧
    ∀ n v, (n, v) ∈ dedupRows (collectCandidates lines) →
      v ∈ occList n (collectCandidates lines) ∧
        ∀ w ∈ occList n (collectCandidates lines), w ≤ v := by
  have hnd : ((dedupRows (collectCandidates lines)).map (·.1)).Nodup :=
    dedupRows_keys_nodup _ [] (by simp)
  have hlk : ∀ n, lookupRow n (dedupRows (collectCandidates lines)) =
      (occList n (collectCandidates lines)).foldl dictMaxStep none := by
    intro n
    rw [dedupRows]
    exact dedup_lookup _ [] n
  refine ⟨hnd, fun n => ?_, fun n v hmem => ?_⟩
  · rw [← occList_ne_nil_iff, ← lookupRow_isSome_iff, hlk]
    constructor
    · intro hne
      rcases hocc : occList n (collectCandidates lines) with _ | ⟨w, t⟩
      · exact absurd hocc hne
      · rw [List.foldl_cons,
          show dictMaxStep none w = some (max w 0) from rfl]
        obtain ⟨v, heq, _, _, _⟩ := dictFold_spec t (max w 0)
        rw [heq]
        rfl
    · intro hs
      by_contra hocc
      rw [hocc] at hs
      simp at hs
  · have hl : lookupRow n (dedupRows (collectCandidates lines)) = some v :=
      (mem_iff_lookup hnd n v).mp hmem
    rw [hlk n] at hl
    rcases hocc : occList n (collectCandidates lines) with _ | ⟨w, t⟩
    · rw [hocc] at hl
      exact absurd hl (by simp)
    · rw [hocc, List.foldl_cons,
        show dictMaxStep none w = some (max w 0) from rfl,
        Nat.max_zero] at hl
      obtain ⟨v2, heq, hv2, hle, hb⟩ := dictFold_spec t w
      rw [heq] at hl
      injection hl with hl
      subst hl
      constructor
      · rcases hv2 with rfl | hv2
        · simp
        · simp [hv2]
      · intro x hx
        rcases List.mem_cons.mp hx with rfl | hx
        · exact hle
        · exact hb x hx

/-- C8 witness: for a name observed with weights 10, 30 and 20, the
surviving row carries weight 30, the maximum. -/
theorem claim_C8_witness :
    30 ∈ occList ("Assignments".toList)
        (collectCandidates
          (["Assignments 10%", "Assignments 30%",
            "Assignments 20%"].map String.toList)) ∧
      ∀ w ∈ occList ("Assignments".toList)
          (collectCandidates
            (["Assignments 10%", "Assignments 30%",
              "Assignments 20%"].map String.toList)), w ≤ 30 :=
  (claim_C8_dedup_max _).2.2 _ 30 (by decide)

/-! ## C1 and C10: arithmetic of the normalizer -/

theorem occList_pos {lines : List (List Char)} {n : List Char} {x : Nat}
    (h : x ∈ occList n (collectCandidates lines)) : 0 < x := by
  obtain ⟨p, hp, he⟩ := List.mem_filterMap.mp h
  by_cases hq : p.1 = n
  · rw [if_pos hq] at he
    injection he with he
    subst he
    exact collectCandidates_pos hp
  · rw [if_neg hq] at he
    exact absurd he (by simp)

theorem dedupRows_pos {lines : List (List Char)} {p : List Char × Nat}
    (h : p ∈ dedupRows (collectCandidates lines)) : 0 < p.2 := by
  obtain ⟨n, v⟩ := p
  have hnd : ((dedupRows (collectCandidates lines)).map (·.1)).Nodup :=
    dedupRows_keys_nodup _ [] (by simp)
  have hl : lookupRow n (dedupRows (collectCandidates lines)) = some v :=
    (mem_iff_lookup hnd n v).mp h
  have hlk : lookupRow n (dedupRows (collectCandidates lines)) =
      (occList n (collectCandidates lines)).foldl dictMaxStep none := by
    rw [dedupRows]
    exact dedup_lookup _ [] n
  rw [hlk] at hl
  rcases hocc : occList n (collectCandidates lines) with _ | ⟨w, t⟩
  · rw [hocc] at hl
    exact absurd hl (by simp)
  · rw [hocc, List.foldl_cons,
      show dictMaxStep none w = some (max w 0) from rfl, Nat.max_zero] at hl
    obtain ⟨v2, heq, _, hle, _⟩ := dictFold_spec t w
    rw [heq] at hl
    injection hl with hl
    subst hl
    have hw : 0 < w := occList_pos (by rw [hocc]; exact List.mem_cons_self _ _)
    omega

theorem rhe_eq_floor (r : ℚ) (z : ℤ) (h1 : (z : ℚ) ≤ r)
    (h2 : r - (z : ℚ) < 1/2) : rhe r = z := by
  have hf : ⌊r⌋ = z := Int.floor_eq_iff.mpr ⟨h1, by linarith⟩
  rw [rhe, hf, if_pos h2]

theorem rhe_eq_up (r : ℚ) (z : ℤ) (h1 : (z : ℚ) ≤ r) (h2 : r < (z : ℚ) + 1)
    (h3 : 1/2 < r - (z : ℚ)) : rhe r = z + 1 := by
  have hf : ⌊r⌋ = z := Int.floor_eq_iff.mpr ⟨h1, h2⟩
  rw [rhe, hf, if_neg (not_lt.mpr (le_of_lt h3)), if_pos h3]

theorem rhe_int (z : ℤ) : rhe ((z : ℚ)) = z :=
  rhe_eq_floor _ z (le_refl _) (by rw [sub_self]; norm_num)

theorem round2_zero : round2 0 = 0 := by
  rw [round2]
  have h1 : (0 : ℚ) * 100 = 0 := by norm_num
  rw [h1, rhe_eq_floor 0 0 (by norm_num) (by norm_num)]
  norm_num

theorem centi_round2 (q : ℚ) : Centi (round2 q) := ⟨rhe (q * 100), rfl⟩

theorem round2_centi {q : ℚ} (h : Centi q) : round2 q = q := by
  obtain ⟨z, rfl⟩ := h
  rw [round2]
  have h1 : (z : ℚ) / 100 * 100 = (z : ℚ) := by field_simp
  rw [h1, rhe_int]

theorem centi_add {a b : ℚ} (ha : Centi a) (hb : Centi b) : Centi (a + b) := by
  obtain ⟨x, rfl⟩ := ha
  obtain ⟨y, rfl⟩ := hb
  exact ⟨x + y, by push_cast; ring⟩

theorem centi_sub {a b : ℚ} (ha : Centi a) (hb : Centi b) : Centi (a - b) := by
  obtain ⟨x, rfl⟩ := ha
  obtain ⟨y, rfl⟩ := hb
  exact ⟨x - y, by push_cast; ring⟩

theorem centi_hundred : Centi 100 := ⟨10000, by norm_num⟩

theorem centi_sum {l : List ℚ} (h : ∀ x ∈ l, Centi x) : Centi l.sum := by
  induction l with
  | nil => exact ⟨0, by norm_num⟩
  | cons a t ih =>
      rw [List.sum_cons]
      exact centi_add (h a (List.mem_cons_self _ _))
        (ih fun x hx => h x (List.mem_cons_of_mem _ hx))

theorem sumWeights_centi {l : List Assessment} (h : ∀ a ∈ l, Centi a.weight) :
    Centi (sumWeights l) := by
  rw [sumWeights]
  refine centi_sum ?_
  intro x hx
  obtain ⟨a, ha, rfl⟩ := List.mem_map.mp hx
  exact h a ha

theorem sumWeights_cons (a : Assessment) (t : List Assessment) :
    sumWeights (a :: t) = a.weight + sumWeights t := by
  simp [sumWeights]

theorem foldl_max_cases : ∀ (s : List ℚ) (x : ℚ),
    s.foldl max x = x ∨ s.foldl max x ∈ s := by
  intro s
  induction s with
  | nil => intro x; left; rfl
  | cons y t ih =>
      intro x
      rw [List.foldl_cons]
      rcases ih (max x y) with h | h
      · rw [h]
        rcases max_choice x y with h2 | h2
        · left; exact h2
        · right; rw [h2]; exact List.mem_cons_self _ _
      · right; exact List.mem_cons_of_mem _ h

theorem maxWeight_mem {l : List Assessment} (h : l ≠ []) :
    ∃ a ∈ l, a.weight = maxWeight l := by
  rcases l with _ | ⟨a, t⟩
  · exact absurd rfl h
  · rcases foldl_max_cases (t.map (·.weight)) a.weight with h2 | h2
    · exact ⟨a, List.mem_cons_self _ _, h2.symm⟩
    · obtain ⟨b, hb, he⟩ := List.mem_map.mp h2
      exact ⟨b, List.mem_cons_of_mem _ hb, he⟩

theorem addToFirstMax_length (M d : ℚ) :
    ∀ l : List Assessment, (addToFirstMax M d l).length = l.length := by
  intro l
  induction l with
  | nil => rfl
  | cons a t ih =>
      simp only [addToFirstMax]
      by_cases h : a.weight = M
      · rw [if_pos h]
        rfl
      · rw [if_neg h, List.length_cons, List.length_cons, ih]

theorem addToFirstMax_sum {M : ℚ} (d : ℚ) :
    ∀ {l : List Assessment}, (∃ a ∈ l, a.weight = M) →
      sumWeights (addToFirstMax M d l) =
        sumWeights l - M + round2 (M + d) := by
  intro l
  induction l with
  | nil =>
      rintro ⟨a, ha, _⟩
      exact absurd ha (List.not_mem_nil a)
  | cons a t ih =>
      rintro ⟨b, hb, hbw⟩
      simp only [addToFirstMax]
      by_cases h : a.weight = M
      · rw [if_pos h, sumWeights_cons, sumWeights_cons]
        show round2 (a.weight + d) + sumWeights t =
          a.weight + sumWeights t - M + round2 (M + d)
        rw [h]
        ring
      · rw [if_neg h, sumWeights_cons, sumWeights_cons]
        have hbt : b ∈ t := by
          rcases List.mem_cons.mp hb with rfl | hbt
          · exact absurd hbw h
          · exact hbt
        rw [ih ⟨b, hbt, hbw⟩]
        ring

theorem fixupDiff_length (l : List Assessment) :
    (fixupDiff l).length = l.length := by
  rw [fixupDiff]
  by_cases h : 1/20 ≤ |round2 (100 - sumWeights l)|
  · rw [if_pos h, addToFirstMax_length]
  · rw [if_neg h]

theorem fixupDiff_sum {l : List Assessment} (hne : l ≠ [])
    (hc : ∀ a ∈ l, Centi a.weight) :
    |100 - sumWeights (fixupDiff l)| < 1/20 := by
  have hS : Centi (sumWeights l) := sumWeights_centi hc
  have hd : Centi (100 - sumWeights l) := centi_sub centi_hundred hS
  have hd2 : round2 (100 - sumWeights l) = 100 - sumWeights l :=
    round2_centi hd
  rw [fixupDiff]
  by_cases hbig : 1/20 ≤ |round2 (100 - sumWeights l)|
  · rw [if_pos hbig]
    obtain ⟨a, ha, haw⟩ := maxWeight_mem hne
    have hMc : Centi (maxWeight l) := haw ▸ hc a ha
    rw [addToFirstMax_sum _ ⟨a, ha, haw⟩, hd2,
      round2_centi (centi_add hMc hd)]
    have he : sumWeights l - maxWeight l +
        (maxWeight l + (100 - sumWeights l)) = 100 := by ring
    rw [he, sub_self, abs_zero]
    norm_num
  · rw [if_neg hbig]
    rw [hd2] at hbig
    exact not_le.mp hbig

theorem normalizeRows_sum {rows : List (List Char × Nat)} (hne : rows ≠ [])
    (hpos : ∀ p ∈ rows, 0 < p.2) (hlen : rows.length ≤ 10) :
    |100 - sumWeights (normalizeRows rows)| < 1/20 := by
  have htot : (0 : ℚ) < (((rows.map (·.2)).sum : ℕ) : ℚ) := by
    have h1 : 0 < (rows.map (·.2)).sum := by
      rcases rows with _ | ⟨p, t⟩
      · exact absurd rfl hne
      · have := hpos p (List.mem_cons_self _ _)
        simp only [List.map_cons, List.sum_cons]
        omega
    exact_mod_cast h1
  rw [normalizeRows, if_neg hne, if_neg (not_le.mpr htot)]
  have key : ∀ L : List Assessment, L ≠ [] → (∀ a ∈ L, Centi a.weight) →
      L.length ≤ 10 → |100 - sumWeights ((fixupDiff L).take 10)| < 1/20 := by
    intro L h1 h2 h3
    rw [List.take_of_length_le (by rw [fixupDiff_length]; exact h3)]
    exact fixupDiff_sum h1 h2
  refine key _ ?_ ?_ ?_
  · rcases rows with _ | ⟨p, t⟩
    · exact absurd rfl hne
    · simp
  · intro a ha
    obtain ⟨p, _, rfl⟩ := List.mem_map.mp ha
    exact centi_round2 _
  · rw [List.length_map]
    exact hlen

/-- C1: on any input whose extractor keeps at least one candidate row (all
kept rows have positive weight), and whose deduplicated candidate list has at
most ten rows, the returned assessment weights sum to within 0.05 of 100.
The bound on the number of rows is needed: the final `[:10]` slice is taken
after the residual fix, so an eleventh row can carry away part of the sum. -/
theorem claim_C1_normalized_sum (lines : List (List Char))
    (hne : dedupRows (collectCandidates lines) ≠ [])
    (hlen : (dedupRows (collectCandidates lines)).length ≤ 10) :
    |100 - sumWeights (extractEvaluations lines)| < 1/20 := by
  rw [extractEvaluations]
  exact normalizeRows_sum hne (fun p hp => dedupRows_pos hp) hlen

/-- C1 counterexample to the unamended claim: eleven candidate rows of 10%
each survive, every weight is scaled to 9.09, the residual fix adds 0.01 to
the first row, but the `[:10]` truncation then drops 9.09, leaving a sum of
90.91 - 0.01 = 90.9, far more than 0.05 away from 100. -/
theorem claim_C1_counterexample :
    collectCandidates elevenLines ≠ [] ∧
      ¬(|100 - sumWeights (extractEvaluations elevenLines)| < 1/20) := by
  constructor
  · decide
  · have h1 : dedupRows (collectCandidates elevenLines) = elevenRows := by
      decide
    have h3 : ¬(elevenRows = []) := by decide
    have h2 : (elevenRows.map (·.2)).sum = 110 := by decide
    rw [extractEvaluations, h1, normalizeRows, if_neg h3]
    simp only [h2]
    rw [if_neg (show ¬((((110 : ℕ)) : ℚ) ≤ 0) from by norm_num)]
    have hval : round2 ((((10 : ℕ)) : ℚ) / (((110 : ℕ)) : ℚ) * 100) =
        909/100 := by
      have hx : (((10 : ℕ)) : ℚ) / (((110 : ℕ)) : ℚ) * 100 = 100/11 := by
        push_cast
        norm_num
      rw [hx, round2]
      have hy : (100/11 : ℚ) * 100 = 10000/11 := by norm_num
      rw [hy, rhe_eq_floor (10000/11) 909 (by norm_num) (by norm_num)]
      norm_num
    have hmap : elevenRows.map (fun p => Assessment.mk p.1
        (round2 ((p.2 : ℚ) / (((110 : ℕ)) : ℚ) * 100))) = elevenNorm := by
      simp only [elevenRows, elevenNorm, List.map_cons, List.map_nil, hval]
    rw [hmap]
    have hsw : sumWeights elevenNorm = 9999/100 := by
      simp only [elevenNorm, sumWeights, List.map_cons, List.map_nil,
        List.sum_cons, List.sum_nil]
      norm_num
    have hdiff : round2 (100 - sumWeights elevenNorm) = 1/100 := by
      rw [hsw]
      have e1 : (100 : ℚ) - 9999/100 = 1/100 := by norm_num
      rw [e1, round2]
      have e2 : (1/100 : ℚ) * 100 = 1 := by norm_num
      rw [e2, rhe_eq_floor 1 1 (by norm_num) (by norm_num)]
      norm_num
    have hno : ¬(1/20 ≤ |round2 (100 - sumWeights elevenNorm)|) := by
      rw [hdiff, abs_of_pos (show (0 : ℚ) < 1/100 from by norm_num)]
      norm_num
    rw [fixupDiff, if_neg hno]
    have htk : elevenNorm.take 10 = tenNorm := rfl
    have hsw10 : sumWeights tenNorm = 909/10 := by
      simp only [tenNorm, sumWeights, List.map_cons, List.map_nil,
        List.sum_cons, List.sum_nil]
      norm_num
    rw [htk, hsw10,
      show (100 : ℚ) - 909/10 = 91/10 from by norm_num,
      abs_of_pos (show (0 : ℚ) < 91/10 from by norm_num)]
    norm_num

/-- C1 witness: two candidate lines (30% and 40%) scale to 42.86 and 57.14,
which sum to exactly 100. -/
theorem claim_C1_witness :
    dedupRows (collectCandidates fractionalLines) ≠ [] ∧
      (dedupRows (collectCandidates fractionalLines)).length ≤ 10 ∧
      |100 - sumWeights (extractEvaluations fractionalLines)| < 1/20 :=
  ⟨by decide, by decide, claim_C1_normalized_sum _ (by decide) (by decide)⟩

theorem round2_300_7 : round2 (300/7 : ℚ) = 2143/50 := by
  rw [round2]
  have hy : (300/7 : ℚ) * 100 = 30000/7 := by norm_num
  rw [hy, rhe_eq_up (30000/7) 4285 (by norm_num) (by norm_num) (by norm_num)]
  norm_num

theorem round2_400_7 : round2 (400/7 : ℚ) = 2857/50 := by
  rw [round2]
  have hy : (400/7 : ℚ) * 100 = 40000/7 := by norm_num
  rw [hy, rhe_eq_floor (40000/7) 5714 (by norm_num) (by norm_num)]
  norm_num

theorem sumWeights_fracNorm : sumWeights fracNorm = 100 := by
  simp only [fracNorm, sumWeights, List.map_cons, List.map_nil,
    List.sum_cons, List.sum_nil]
  norm_num

theorem fracNorm_fix : fixupDiff fracNorm = fracNorm := by
  have hno : ¬(1/20 ≤ |round2 (100 - sumWeights fracNorm)|) := by
    rw [sumWeights_fracNorm, sub_self, round2_zero, abs_zero]
    norm_num
  rw [fixupDiff, if_neg hno]

theorem extractEvaluations_fractional :
    extractEvaluations fractionalLines = fracNorm := by
  have hc : dedupRows (collectCandidates fractionalLines) = fracRows := by
    decide
  have hnefr : ¬(fracRows = []) := by decide
  have hsum : (fracRows.map (·.2)).sum = 70 := by decide
  rw [extractEvaluations, hc, normalizeRows, if_neg hnefr]
  simp only [hsum]
  rw [if_neg (show ¬((((70 : ℕ)) : ℚ) ≤ 0) from by norm_num)]
  have hval30 : round2 ((((30 : ℕ)) : ℚ) / (((70 : ℕ)) : ℚ) * 100) =
      2143/50 := by
    have hx : (((30 : ℕ)) : ℚ) / (((70 : ℕ)) : ℚ) * 100 = 300/7 := by
      push_cast
      norm_num
    rw [hx]
    exact round2_300_7
  have hval40 : round2 ((((40 : ℕ)) : ℚ) / (((70 : ℕ)) : ℚ) * 100) =
      2857/50 := by
    have hx : (((40 : ℕ)) : ℚ) / (((70 : ℕ)) : ℚ) * 100 = 400/7 := by
      push_cast
      norm_num
    rw [hx]
    exact round2_400_7
  have hmap : fracRows.map (fun p => Assessment.mk p.1
      (round2 ((p.2 : ℚ) / (((70 : ℕ)) : ℚ) * 100))) = fracNorm := by
    simp only [fracRows, fracNorm, List.map_cons, List.map_nil,
      hval30, hval40]
  rw [hmap, fracNorm_fix]
  rfl

theorem normalizePass_fractional :
    normalizePass [Assessment.mk ("Assignment alpha".toList) 30,
      Assessment.mk ("Project".toList) 40] = fracNorm := by
  have hswe : sumWeights [Assessment.mk ("Assignment alpha".toList) 30,
      Assessment.mk ("Project".toList) 40] = 70 := by
    simp only [sumWeights, List.map_cons, List.map_nil,
      List.sum_cons, List.sum_nil]
    norm_num
  rw [normalizePass, if_pos (by rw [hswe]; norm_num)]
  simp only [hswe, List.map_cons, List.map_nil]
  have hx30 : (30 : ℚ) / 70 * 100 = 300/7 := by norm_num
  have hx40 : (40 : ℚ) / 70 * 100 = 400/7 := by norm_num
  simp only [hx30, hx40, round2_300_7, round2_400_7]
  exact fracNorm_fix

/-- C10: the `Assessment` model declares `weight: int`, but both
normalization passes produce two-decimal weights: scaling 30%/40% rows
yields the weight 42.86, which no integer-weight model value can equal. -/
theorem claim_C10_weight_type :
    (∃ a ∈ extractEvaluations fractionalLines,
        ∀ m : AssessmentModel, (m.weight : ℚ) ≠ a.weight) ∧
      (∃ a ∈ normalizePass [Assessment.mk ("Assignment alpha".toList) 30,
          Assessment.mk ("Project".toList) 40],
        ∀ m : AssessmentModel, (m.weight : ℚ) ≠ a.weight) := by
  constructor
  · refine ⟨Assessment.mk ("Assignment alpha".toList) (2143/50), ?_, ?_⟩
    · rw [extractEvaluations_fractional]
      exact List.mem_cons_self _ _
    · intro m hm
      have hm2 : (m.weight : ℚ) = 2143/50 := hm
      have h2 : ((m.weight * 50 : ℤ) : ℚ) = ((2143 : ℤ) : ℚ) := by
        push_cast
        rw [hm2]
        norm_num
      have h3 : m.weight * 50 = 2143 := by exact_mod_cast h2
      omega
  · refine ⟨Assessment.mk ("Assignment alpha".toList) (2143/50), ?_, ?_⟩
    · rw [normalizePass_fractional]
      exact List.mem_cons_self _ _
    · intro m hm
      have hm2 : (m.weight : ℚ) = 2143/50 := hm
      have h2 : ((m.weight * 50 : ℤ) : ℚ) = ((2143 : ℤ) : ℚ) := by
        push_cast
        rw [hm2]
        norm_num
      have h3 : m.weight * 50 = 2143 := by exact_mod_cast h2
      omega

/-! ## Claim C3: output size bounds of the three paths -/

theorem normalizePass_length (l : List Assessment) :
    (normalizePass l).length = l.length := by
  rw [normalizePass]
  split
  · rw [fixupDiff_length, List.length_map]
  · rfl

/-- C3 (amended): the evaluations list is bounded by 10 on every path that
builds it with `_extract_evaluations` — the heuristic result (hence also the
empty-credential and caught-error results) and the success path's fallback
when the model returns no usable evaluations — and the success path stores
at most 20 events.  Neither bound is universal: the heuristic event loop
checks its 20-event cap only between lines, so heuristic results are bounded
only by 19 plus the largest per-line date count, and the success path
applies no 10-entry cap to accepted model evaluations. -/
theorem claim_C3_bounds :
    (∀ lines : List (List Char), (extractEvaluations lines).length ≤ 10) ∧
    (∀ t : List Char, (heuristic t).evaluations.length ≤ 10) ∧
    (∀ (raw : List Char) (key : Option (List Char)) (e : List Char),
      (parsePdfBytes raw key (Except.error e)).evaluations.length ≤ 10) ∧
    (∀ (raw : List Char) (key : Option (List Char)) (r : LcSyllabus),
      truthy key = true → lcEvalsOut r.evaluations = [] →
      (parsePdfBytes raw key (Except.ok r)).evaluations.length ≤ 10) ∧
    (∀ t : List Char, (heuristic t).events.length ≤ 19 + maxLineDates t) ∧
    ∀ (raw : List Char) (key : Option (List Char)) (r : LcSyllabus),
      truthy key = true →
      (parsePdfBytes raw key (Except.ok r)).events.length ≤ 20 := by
  have hheu : ∀ t : List Char, (heuristic t).evaluations.length ≤ 10 :=
    fun t => extractEvaluations_le10 _
  refine ⟨extractEvaluations_le10, hheu, fun raw key e => ?_,
    fun raw key r hk h0 => ?_, fun t => ?_, fun raw key r hk => ?_⟩
  · unfold parsePdfBytes
    by_cases h1 : pyStrip (cleanText raw) = []
    · rw [if_pos h1]
      simp
    · rw [if_neg h1]
      by_cases h2 : truthy key = true
      · simp only [h2, Bool.not_true, Bool.false_eq_true, if_false]
        exact hheu _
      · have h2' : truthy key = false := by revert h2; cases truthy key <;> simp
        rw [h2', if_pos (show (!false) = true from by decide)]
        exact hheu _
  · unfold parsePdfBytes
    by_cases h1 : pyStrip (cleanText raw) = []
    · rw [if_pos h1]
      simp
    · rw [if_neg h1, hk, if_neg (by decide)]
      dsimp only
      simp only [if_pos h0]
      by_cases hE : extractEvaluations
          ((splitLinesPy (cleanText raw)).map pyStrip) = []
      · rw [if_neg (not_not_intro hE)]
        exact extractEvaluations_le10 _
      · rw [if_pos hE, normalizePass_length]
        exact extractEvaluations_le10 _
  · exact heuristicEventsGo_len _ [] _
      (fun l hl => foldr_max_le _ l hl) (by simp)
  · unfold parsePdfBytes
    by_cases h1 : pyStrip (cleanText raw) = []
    · rw [if_pos h1]
      simp
    · rw [if_neg h1, hk, if_neg (by decide)]
      dsimp only
      rw [List.length_take]
      omega

/-- C3 counterexample: on seven three-date lines the heuristic loop stores
21 events, which the orchestrator's no-credential path passes through; and
eleven accepted model evaluations of weight 9 (total 99, so the
re-normalization is skipped) are all stored by the success path — there is
no 10-entry cap there. -/
theorem claim_C3_counterexample :
    ¬((parsePdfBytes sevenTripleLines none
        (Except.error [])).events.length ≤ 20) ∧
      ¬((parsePdfBytes ("Final exam Oct 3, 2025".toList)
          (some ("k".toList))
          (Except.ok (LcSyllabus.mk ("A course.".toList) []
            elevenQuiz))).evaluations.length ≤ 10) := by
  constructor
  · decide
  · have hc : pyStrip ("Quiz".toList) ≠ [] ∧ (0 : ℚ) ≤ 9 ∧ (9 : ℚ) ≤ 200 :=
      ⟨by decide, by norm_num, by norm_num⟩
    have hlc : lcEvalsOut elevenQuiz = elevenNine := by
      simp only [lcEvalsOut, elevenQuiz, List.foldl_cons, List.foldl_nil,
        if_pos hc]
      rfl
    have hne2 : elevenNine ≠ [] := by
      rw [elevenNine]
      simp
    have hsw : sumWeights elevenNine = 99 := by
      simp only [elevenNine, sumWeights, List.map_replicate,
        List.sum_replicate, nsmul_eq_mul]
      norm_num
    have hcond : ¬(0 < sumWeights elevenNine ∧
        (sumWeights elevenNine < 98 ∨ 102 < sumWeights elevenNine)) := by
      rw [hsw]
      norm_num
    have hnp : normalizePass elevenNine = elevenNine := by
      rw [normalizePass, if_neg hcond]
    have hev : (parsePdfBytes ("Final exam Oct 3, 2025".toList)
        (some ("k".toList)) (Except.ok (LcSyllabus.mk ("A course.".toList) []
          elevenQuiz))).evaluations = elevenNine := by
      unfold parsePdfBytes
      rw [if_neg (show
        ¬(pyStrip (cleanText ("Final exam Oct 3, 2025".toList)) = [])
          from by decide)]
      rw [if_neg (show ¬((!truthy (some ("k".toList))) = true)
          from by decide)]
      dsimp only
      simp only [hlc, if_neg hne2, if_pos hne2]
      rw [hnp]
    rw [hev]
    have hL : elevenNine.length = 11 := by
      rw [elevenNine, List.length_replicate]
    rw [hL]
    decide

/-- C3 witness: the amended bounds applied at concrete inputs, including
the success path's fallback to the (10-capped) extractor when the model
returns no usable evaluations. -/
theorem claim_C3_witness :
    (extractEvaluations elevenLines).length ≤ 10 ∧
      lcEvalsOut (LcSyllabus.mk [] [] []).evaluations = [] ∧
      (parsePdfBytes ("Final exam Oct 3, 2025".toList) (some ("k".toList))
          (Except.ok (LcSyllabus.mk [] [] []))).evaluations.length ≤ 10 ∧
      (parsePdfBytes ("Final exam Oct 3, 2025".toList) (some ("k".toList))
          (Except.ok (LcSyllabus.mk [] [] []))).events.length ≤ 20 :=
  ⟨claim_C3_bounds.1 elevenLines,
    by decide,
    claim_C3_bounds.2.2.2.1 _ _ _ (by decide) (by decide),
    claim_C3_bounds.2.2.2.2.2 _ _ _ (by decide)⟩

end SyllabusParser
